import Mathlib

/-!
Verification development for the android-risk-agents pipeline.

The Python sources are shallowly embedded: texts are Lean strings over
lists of characters, machine integers are `Int`/`Nat`, database tables are
explicit lists of rows, and fallible operations return `Option`/`Except`.
Each definition mirrors the source function of the same (or closest legal)
name; external collaborators (HTTP, the Supabase client, the LLM endpoints,
the standard-library JSON parser and `difflib`) are modelled at their
interfaces, as documented at each definition.
-/

set_option maxHeartbeats 1000000

namespace RiskAgents

/-! ## Python string primitives -/

/-- Whitespace test used to model Python `str.strip` (ASCII whitespace). -/
def isPyWS (c : Char) : Bool := c.isWhitespace

/-- Python `str.strip()` on a character list: drop whitespace from both ends. -/
def stripChars (l : List Char) : List Char :=
  ((l.dropWhile isPyWS).reverse.dropWhile isPyWS).reverse

/-- Python `str.strip()` on strings. -/
def pyStrip (s : String) : String := ⟨stripChars s.data⟩

/-- Python slicing `s[:n]` (character count). -/
def strTake (s : String) (n : Nat) : String := ⟨s.data.take n⟩

/-- Python `len(s)` in characters. -/
def strLen (s : String) : Nat := s.data.length

/-! ## `src/embedder.py` — `chunk_text`

The Python function loops `while start < n`, taking the window
`t[start:end]` with `end = min(n, start + chunk_size_chars)`, stripping it,
appending it when nonempty, breaking when `end >= n`, and otherwise
setting `start = max(0, end - overlap_chars)`.  The loop is modelled with
explicit fuel so that its (non-)termination can be stated; `max(0, ...)`
is Nat truncated subtraction. -/

def chunkLoop (t : List Char) (w o : Nat) :
    Nat → Nat → List String → Option (List String)
  | 0, _, _ => none
  | fuel + 1, start, acc =>
    if start < t.length then
      let e := min t.length (start + w)
      let chunk := stripChars ((t.drop start).take (e - start))
      let acc' := if chunk = [] then acc else acc ++ [⟨chunk⟩]
      if t.length ≤ e then some acc'
      else chunkLoop t w o fuel (e - o) acc'
    else some acc

/-- Fueled `chunk_text`: `none` means the loop has not finished within
`fuel` iterations. -/
def chunk_textFuel (fuel : Nat) (text : String) (w o : Nat) :
    Option (List String) :=
  let t := stripChars text.data
  if t = [] then some []
  else if w = 0 then some [⟨t⟩]
  else chunkLoop t w o fuel 0 []

/-- The source `chunk_text`, run with enough fuel for every terminating
configuration (`o < w` needs at most `length + 1` iterations). -/
def chunk_text (text : String) (w : Nat := 1600) (o : Nat := 200) :
    Option (List String) :=
  chunk_textFuel ((stripChars text.data).length + 1) text w o

/-! The windows actually visited by the chunking loop, as plain character
slices (before the per-window strip). -/

def windowsF (t : List Char) (w o : Nat) : Nat → Nat → List (List Char)
  | 0, _ => []
  | fuel + 1, start =>
    if start < t.length then
      let e := min t.length (start + w)
      ((t.drop start).take (e - start)) ::
        (if t.length ≤ e then [] else windowsF t w o fuel (e - o))
    else []

/-- The reconstruction the round-trip claim describes: the first chunk,
followed by every later chunk with its `o`-character overlap prefix
removed, concatenated. -/
def uniqueConcat (o : Nat) : List String → String
  | [] => ""
  | c :: cs => ⟨c.data ++ ((cs.map String.data).map (List.drop o)).flatten⟩

/-! ## `src/detect_changes.py` — `_delta_added_text`

The function splits both texts into lines, runs `difflib.ndiff`, keeps the
lines tagged `"+ "`, joins them with newlines, strips the result, and
truncates when it exceeds `max_chars`.  `difflib` is an external library;
it is modelled here as a longest-common-subsequence line diff (for the
inputs in this development — no replace blocks, fewer than 200 lines — the
model's inserted lines coincide with `ndiff`'s). -/

/-- Python `str.splitlines()` restricted to `\n` separators (snapshot text
is normalized so bare carriage returns do not occur): no trailing empty
line for a trailing newline, and `""` yields `[]`. -/
def splitlinesChars : List Char → List String
  | [] => []
  | c :: cs =>
    if c = '\n' then ⟨[]⟩ :: splitlinesChars cs
    else
      match splitlinesChars cs with
      | [] => [⟨[c]⟩]
      | s :: ss => ⟨c :: s.data⟩ :: ss

def pySplitlines (s : String) : List String := splitlinesChars s.data

/-- One tagged line of a line-level diff. -/
inductive DiffLine where
  | keep (line : String)
  | del (line : String)
  | ins (line : String)
deriving DecidableEq, Repr

/-- Longest common subsequence of the two line lists (ties resolved toward
the first branch), written with a fuel argument so it is structurally
recursive and evaluates in the kernel. -/
def lcsAux : Nat → List String → List String → List String
  | 0, _, _ => []
  | _ + 1, [], _ => []
  | _ + 1, _ :: _, [] => []
  | fuel + 1, x :: xs, y :: ys =>
    if x = y then x :: lcsAux fuel xs ys
    else
      let l1 := lcsAux fuel (x :: xs) ys
      let l2 := lcsAux fuel xs (y :: ys)
      if l2.length ≤ l1.length then l1 else l2

def lcsLines (a b : List String) : List String :=
  lcsAux (a.length + b.length) a b

/-- Emit a tagged diff along a common subsequence: before each common
line, the old-side lines are deletions and the new-side lines are
insertions, in their original order. -/
def emitDiff : List String → List String → List String → List DiffLine
  | [], a, b => a.map DiffLine.del ++ b.map DiffLine.ins
  | c :: cs, a, b =>
    (a.takeWhile (· ≠ c)).map DiffLine.del ++
      ((b.takeWhile (· ≠ c)).map DiffLine.ins ++
        (DiffLine.keep c ::
          emitDiff cs ((a.dropWhile (· ≠ c)).drop 1)
            ((b.dropWhile (· ≠ c)).drop 1)))

/-- Model of `difflib.ndiff` restricted to the line tags (the `"? "` hint
lines carry no inserted text and are not modelled). -/
def ndiffModel (a b : List String) : List DiffLine :=
  emitDiff (lcsLines a b) a b

/-- The lines tagged `"+ "` by the diff, in order. -/
def insertedLines (a b : List String) : List String :=
  (ndiffModel a b).filterMap fun
    | DiffLine.ins l => some l
    | _ => none

/-- The inserted lines joined with newlines: what the claim calls "the
lines inserted by the line-level diff, concatenated in their original
order". -/
def insertedJoined (old_text new_text : String) : String :=
  ⟨List.intercalate ['\n']
    ((insertedLines (pySplitlines old_text) (pySplitlines new_text)).map
      String.data)⟩

/-- Truncation step of `_delta_added_text`: empty delta returns `""`, a
delta over `max_chars` keeps an 80% prefix and 20% suffix around a marker
(`int(max_chars * 0.8)` is exact for the default 12000). -/
def truncateDelta (max_chars : Nat) (delta : String) : String :=
  if delta.data = [] then ""
  else if max_chars < delta.data.length then
    ⟨delta.data.take (max_chars * 8 / 10) ++
      "\n\n[...delta truncated...]\n\n".data ++
      delta.data.drop (delta.data.length - max_chars * 2 / 10)⟩
  else delta

/-- The source `_delta_added_text`: keep only added lines, join with
newlines, strip, and truncate over `max_chars`. -/
def delta_added_text (old_text new_text : String)
    (max_chars : Nat := 12000) : String :=
  truncateDelta max_chars (pyStrip (insertedJoined old_text new_text))

/-! ## `src/generate_insights_groq.py` — `safe_output`

The analysis model's JSON object is modelled as a record of optional,
already-string-coerced fields (`str(...)` is applied by the code before
every use; a non-list under a list key or a non-numeric risk score, which
the code maps to `None`, is modelled as an absent field).  Python floats
are modelled as exact rationals: the clamp only compares and selects. -/

structure RawOutput where
  title : Option String := none
  summary : Option String := none
  category : Option String := none
  affected_signals : Option (List String) := none
  recommended_actions : Option (List String) := none
  risk_score : Option Int := none
  confidence : Option ℚ := none
deriving DecidableEq, Repr

/-- The validated output dictionary returned by `safe_output`: all keys
present, optional ones possibly `None`. -/
structure SafeOutput where
  title : String
  summary : String
  category : Option String
  affected_signals : Option (List String)
  recommended_actions : Option (List String)
  risk_score : Option Int
  confidence : ℚ
deriving DecidableEq, Repr

/-- Loop of `_as_list_of_str`: strip each item, skip blanks, cap each kept
item at `max_len` characters, and stop once `max_items` items are kept
(the length check runs after each append). -/
def asListGo (max_items max_len : Nat) : List String → Nat → List String
  | [], _ => []
  | item :: rest, outLen =>
    let s := pyStrip item
    if s.data = [] then asListGo max_items max_len rest outLen
    else
      strTake s max_len ::
        (if max_items ≤ outLen + 1 then []
         else asListGo max_items max_len rest (outLen + 1))

/-- The source `_as_list_of_str`: `None` stays `None`, and an empty result
list collapses to `None`. -/
def as_list_of_str (x : Option (List String)) (max_items max_len : Nat) :
    Option (List String) :=
  match x with
  | none => none
  | some items =>
    let out := asListGo max_items max_len items 0
    if out = [] then none else some out

/-- The source `safe_output`: defaulting, stripping, caps and clamps. -/
def safe_output (obj : RawOutput) : SafeOutput :=
  let title0 := pyStrip (obj.title.getD "")
  let title := if title0.data = [] then "Update detected" else title0
  let summary0 := pyStrip (obj.summary.getD "")
  let summary :=
    if summary0.data = [] then "Update detected. Details unknown."
    else summary0
  let category :=
    match obj.category with
    | none => none
    | some c =>
      let c' := strTake (pyStrip c) 80
      if c'.data = [] then none else some c'
  let confidence := max 0 (min 1 (obj.confidence.getD (6 / 10)))
  let risk_score :=
    match obj.risk_score with
    | none => none
    | some r => some (max 1 (min 5 r))
  { title := strTake title 120
    summary := strTake summary 1200
    category := category
    affected_signals := as_list_of_str obj.affected_signals 5 120
    recommended_actions := as_list_of_str obj.recommended_actions 5 140
    risk_score := risk_score
    confidence := confidence }

/-! ## `src/generate_insights_groq.py` — the per-Change body of `run()`

The triage model's parsed JSON is modelled as a record of optional typed
fields, and the coercions `bool(...)`/`int(...)`/`str(...)[:80]` the code
applies are mirrored.  `insert_insight` builds its payload skipping every
`None`-valued optional argument; the payload is modelled with `Option`
fields where `none` means "key omitted". -/

structure TriageRaw where
  is_relevant : Option Bool := none
  relevance_score : Option Int := none
  primary_theme : Option String := none
  what_changed_hint : Option String := none
deriving DecidableEq, Repr

/-- Coercion `str(triage_raw.get("primary_theme", "other"))[:80]`. -/
def themeOf (t : TriageRaw) : String :=
  strTake (t.primary_theme.getD "other") 80

/-- Coercion `str(triage_raw.get("what_changed_hint", "unknown"))[:200]`
used inside the gate summary. -/
def hintOf (t : TriageRaw) : String :=
  strTake (t.what_changed_hint.getD "unknown") 200

/-- Title template of the "not relevant" placeholder insight. -/
def gateTitle (score : Int) : String :=
  "Not relevant to digital risk (score " ++ toString score ++ ")"

/-- Summary template of the "not relevant" placeholder insight, citing the
triage theme and the what-changed hint. -/
def gateSummary (theme hint : String) : String :=
  "This update does not appear to change data collection capabilities, " ++
    "platform policies, or attacker and detection dynamics in a way " ++
    "that is actionable for digital fraud risk monitoring. Theme: " ++
    theme ++ ". Hint: " ++ hint

/-- Row upserted by `insert_insight` (keyed on `change_id`); a `none` in
an optional field means the key is omitted from the payload. -/
structure InsightPayload where
  change_id : Int
  agent_name : String
  title : String
  summary : String
  confidence : ℚ
  category : Option String
  affected_signals : Option (List String)
  recommended_actions : Option (List String)
  risk_score : Option Int
deriving DecidableEq, Repr

/-- The payload `run()` passes to `insert_insight` from a validated
output. -/
def mkInsightPayload (cid : Int) (agent : String) (out : SafeOutput) :
    InsightPayload :=
  { change_id := cid
    agent_name := agent
    title := out.title
    summary := out.summary
    confidence := out.confidence
    category := out.category
    affected_signals := out.affected_signals
    recommended_actions := out.recommended_actions
    risk_score := out.risk_score }

/-- The per-Change body of `run()` after triage parsing: the relevance
gate on `is_relevant`/`relevance_score`, the placeholder insight on the
gate path (no analysis call), and the analysis path with its category and
title fix-ups.  `analyze` stands for the `_call_llm` round-trip to the
analysis model; the second component counts how often it was invoked. -/
def run_change_step (threshold : Int) (analyze : Unit → RawOutput)
    (cid : Int) (agent : String) (t : TriageRaw) : InsightPayload × Nat :=
  if ¬ (t.is_relevant.getD false) = true ∨
      t.relevance_score.getD 0 < threshold then
    (mkInsightPayload cid agent (safe_output
      { title := some (gateTitle (t.relevance_score.getD 0))
        summary := some (gateSummary (themeOf t) (hintOf t))
        category := some (themeOf t)
        affected_signals := some []
        recommended_actions := some []
        risk_score := some 1
        confidence := some (55 / 100) }), 0)
  else
    let out := safe_output (analyze ())
    let category :=
      match out.category with
      | none => some (themeOf t)
      | some c => some c
    let title :=
      if out.title.data ≠ [] ∧
          ¬ ("relevance".data <:+: out.title.data.map Char.toLower) then
        strTake ⟨out.title.data ++
          (" (relevance " ++ toString (t.relevance_score.getD 0) ++
            ")").data⟩ 120
      else out.title
    (mkInsightPayload cid agent
      { out with category := category, title := title }, 1)

/-- Triage result with `is_relevant` false and score 10, as in the spec
scenario. -/
def triageLow : TriageRaw :=
  { is_relevant := some false
    relevance_score := some 10
    primary_theme := some "policy_change"
    what_changed_hint := some "minor copy edit" }

/-! ## `src/generate_insights_monstral.py` — `_call_chat_json`

One attempt (endpoint round-trip, fence strip, JSON parse) is modelled as
an oracle `Nat → Option J` indexed by the attempt number: `none` is any
exception the `except` arm catches.  The trace records the call outcome,
the number of attempts made, and the sleeps performed (in seconds, as
exact rationals; `_sleep_backoff(attempt)` sleeps `base * 2 ^ attempt`).
The wrapped error message text is not modelled, only that a definitive
error is raised. -/

structure CallTrace (J : Type) where
  result : Except Unit J
  calls : Nat
  sleeps : List ℚ
deriving Repr

def sleep_backoff (base : ℚ) (attempt : Nat) : ℚ := base * 2 ^ attempt

/-- The `for attempt in range(MAX_RETRIES)` loop: on success return the
parsed value; on failure sleep and continue unless this was the final
attempt, which raises.  The `0` fuel case is the post-loop raise reached
only when `MAX_RETRIES = 0`. -/
def callGo {J : Type} (base : ℚ) (oracle : Nat → Option J) :
    Nat → Nat → CallTrace J
  | 0, _ => { result := .error (), calls := 0, sleeps := [] }
  | remaining + 1, attempt =>
    match oracle attempt with
    | some j => { result := .ok j, calls := 1, sleeps := [] }
    | none =>
      if remaining = 0 then
        { result := .error (), calls := 1, sleeps := [] }
      else
        { result := (callGo base oracle remaining (attempt + 1)).result
          calls := (callGo base oracle remaining (attempt + 1)).calls + 1
          sleeps := sleep_backoff base attempt ::
            (callGo base oracle remaining (attempt + 1)).sleeps }

/-- The source `_call_chat_json` retry shell (defaults:
`LLM_MAX_RETRIES = 4`, `LLM_RETRY_BASE_S = 1.25`). -/
def call_chat_json {J : Type} (oracle : Nat → Option J)
    (maxRetries : Nat := 4) (base : ℚ := 5 / 4) : CallTrace J :=
  callGo base oracle maxRetries 0

/-! ## `src/generate_insights_groq.py` — `extract_json_only`

The strict JSON parser (`json.loads`, standard library) is modelled as a
parameter `loads : String → Option J`: `some` is a successful parse,
`none` is the raised `JSONDecodeError`.  The string preprocessing — the
initial strip, the `split("```")` fence handling with its
`replace("json", "", 1)`, and the first-`{` / last-`}` fallback slice —
is embedded directly. -/

def openBrace : Char := Char.ofNat 123

def closeBrace : Char := Char.ofNat 125

/-- Python `str.split(sep)` for a nonempty separator, with fuel for
structural recursion (`fuel ≥ length` always suffices). -/
def splitSepF (sep : List Char) : Nat → List Char → List (List Char)
  | _, [] => [[]]
  | 0, l => [l]
  | fuel + 1, c :: cs =>
    if sep.isPrefixOf (c :: cs) then
      [] :: splitSepF sep fuel ((c :: cs).drop sep.length)
    else
      match splitSepF sep fuel cs with
      | [] => [[c]]
      | p :: ps => (c :: p) :: ps

def splitSep (sep l : List Char) : List (List Char) :=
  splitSepF sep l.length l

/-- Python `str.replace(pat, "", 1)`: delete the first occurrence of
`pat`, scanning left to right. -/
def replaceFirst (pat : List Char) : List Char → List Char
  | [] => []
  | c :: cs =>
    if pat.isPrefixOf (c :: cs) then (c :: cs).drop pat.length
    else c :: replaceFirst pat cs

/-- Python `str.rfind(c)`: index of the last occurrence, if any. -/
def lastIdxOf (c : Char) (l : List Char) : Option Nat :=
  match l.reverse.findIdx? (fun x => x = c) with
  | none => none
  | some k => some (l.length - 1 - k)

/-- The fence-handling prefix of `extract_json_only`: when the stripped
input starts with a fence, take the first fenced segment
(`split("```")[1]`), delete the first occurrence of `"json"` anywhere in
it, and strip again. -/
def preprocessFence (l : List Char) : List Char :=
  if ("```".data).isPrefixOf l then
    match splitSep ("```".data) l with
    | _ :: p1 :: _ => stripChars (replaceFirst ("json".data) p1)
    | _ => l
  else l

/-- The source `extract_json_only`: strip, handle fences, try a strict
parse, and fall back to the substring between the first brace and the
last closing brace; `Except.error` is the propagated exception. -/
def extract_json_only {J : Type} (loads : String → Option J)
    (s : String) : Except Unit J :=
  match loads ⟨preprocessFence (stripChars s.data)⟩ with
  | some j => .ok j
  | none =>
    match (preprocessFence (stripChars s.data)).findIdx?
        (fun c => c = openBrace),
        lastIdxOf closeBrace (preprocessFence (stripChars s.data)) with
    | some st, some en =>
      if en ≤ st then .error ()
      else
        match loads ⟨((preprocessFence (stripChars s.data)).drop
            st).take (en + 1 - st)⟩ with
        | some j => .ok j
        | none => .error ()
    | some _, none => .error ()
    | none, _ => .error ()

/-- Fence stripping as the claim words it (a second definition following
the spec, for comparison with the code's `preprocessFence`): remove the
leading and trailing fence markers and an optional `json` language tag at
the start of the fenced content, then strip. -/
def stripFencesSpecView (l : List Char) : List Char :=
  if ("```".data).isPrefixOf l then
    let inner := (l.drop 3).take (l.length - 6)
    let inner :=
      if ("json".data).isPrefixOf inner then inner.drop 4 else inner
    stripChars inner
  else l

/-! ## `src/scrape_sources.py` — the skip gate and `scrape_and_store`

The HTTP transport and the HTML-to-text cleaning are external
collaborators; the gate is modelled from the point where the response
status code and the cleaned, capped text are known.  Timestamp, latency
and raw-HTML fields of the dataclass are not involved in the claim and
are omitted; the SHA-256 fingerprint is modelled by the fingerprinted
text itself. -/

structure ScrapeResult where
  url : String
  status_code : Int
  clean_text : String
  clean_text_len : Nat
  should_skip : Bool
  skip_reason : Option String
deriving DecidableEq, Repr

def MIN_CLEAN_TEXT_LEN : Nat := 1200

/-- Classification tail of `fetch_and_clean`: HTTP errors (status ≥ 400)
take precedence, then the minimum-length gate on the cleaned text. -/
def fetch_and_clean (url : String) (status_code : Int)
    (clean_text : String) (min_clean_len : Nat := MIN_CLEAN_TEXT_LEN) :
    ScrapeResult :=
  if 400 ≤ status_code then
    { url := url, status_code := status_code, clean_text := clean_text,
      clean_text_len := strLen clean_text, should_skip := true,
      skip_reason := some ("http_error:" ++ toString status_code) }
  else if strLen clean_text < min_clean_len then
    { url := url, status_code := status_code, clean_text := clean_text,
      clean_text_len := strLen clean_text, should_skip := true,
      skip_reason := some ("clean_text_too_short:" ++
        toString (strLen clean_text) ++ "<min:" ++
        toString min_clean_len) }
  else
    { url := url, status_code := status_code, clean_text := clean_text,
      clean_text_len := strLen clean_text, should_skip := false,
      skip_reason := none }

/-- The `insert_to_supabase` upsert into the `snapshots` table, keyed on
`(url, clean_text_sha256)` (`USE_UPSERT = True`). -/
def upsertSnapshotRecord (store : List ScrapeResult) (r : ScrapeResult) :
    List ScrapeResult :=
  if store.any (fun x => x.url = r.url ∧ x.clean_text = r.clean_text)
  then
    store.map (fun x =>
      if x.url = r.url ∧ x.clean_text = r.clean_text then r else x)
  else store ++ [r]

/-- The source `scrape_and_store`: fetch, classify, and insert the record
unconditionally — the code comment reads "still store skip records so you
can debug coverage". -/
def scrape_and_store (store : List ScrapeResult) (url : String)
    (status_code : Int) (clean_text : String)
    (min_clean_len : Nat := MIN_CLEAN_TEXT_LEN) :
    List ScrapeResult × Bool × Option String :=
  (upsertSnapshotRecord store
      (fetch_and_clean url status_code clean_text min_clean_len),
    (fetch_and_clean url status_code clean_text min_clean_len).should_skip,
    (fetch_and_clean url status_code clean_text min_clean_len).skip_reason)

/-! ## `src/detect_changes.py` — `main`, and `src/db.py` —
`create_baseline_changes`

The content store is modelled explicitly: the `sources` table as a list
of `(id, active)` pairs, the per-source snapshot query (ordered by
`fetched_at` descending) as a function from source id to the ordered
result rows, and the `changes` table as a list of rows.  The supabase
upsert with `on_conflict="source_id,new_snapshot_id"` replaces the
matching row (the unique constraint implies at most one); a plain
`insert` appends.  The vector-chunk embedding path guarded by
`EMBED_DELTAS_ON_CHANGE` writes a different table and is outside this
model. -/

structure SnapRow where
  id : Int
  content_hash : String
deriving DecidableEq, Repr

structure ChangeRow where
  source_id : Int
  prev_snapshot_id : Int
  new_snapshot_id : Int
  diff_prev_hash : Option String := none
  diff_new_hash : Option String := none
  diff_type : Option String := none
  diff_note : Option String := none
  created_at : String
deriving DecidableEq, Repr

structure PipelineState where
  sources : List (Int × Bool)
  snaps : Int → List SnapRow
  changes : List ChangeRow

/-- Upsert into `changes` with `on_conflict="source_id,new_snapshot_id"`:
replace the row(s) with the same key, else append. -/
def upsertChange (rows : List ChangeRow) (r : ChangeRow) :
    List ChangeRow :=
  if rows.any (fun x => x.source_id = r.source_id ∧
      x.new_snapshot_id = r.new_snapshot_id) then
    rows.map (fun x =>
      if x.source_id = r.source_id ∧
          x.new_snapshot_id = r.new_snapshot_id then r else x)
  else rows ++ [r]

/-- The Change payload `main` upserts for a detected hash divergence. -/
def detectedRow (sid : Int) (previous latest : SnapRow) (now : String) :
    ChangeRow :=
  { source_id := sid
    prev_snapshot_id := previous.id
    new_snapshot_id := latest.id
    diff_prev_hash := some previous.content_hash
    diff_new_hash := some latest.content_hash
    created_at := now }

/-- The per-source body of `detect_changes.main`: skip under two
snapshots, skip equal fingerprints, otherwise upsert. -/
def detectOne (now : String) (snapsOf : Int → List SnapRow) (sid : Int)
    (rows : List ChangeRow) : List ChangeRow :=
  match snapsOf sid with
  | latest :: previous :: _ =>
    if latest.content_hash = previous.content_hash then rows
    else upsertChange rows (detectedRow sid previous latest now)
  | _ => rows

/-- Ids of the active sources, in query order. -/
def activeIds (st : PipelineState) : List Int :=
  (st.sources.filter (fun s => s.2)).map Prod.fst

/-- The source `detect_changes.main`: one pass over the active sources. -/
def detect_changes (now : String) (st : PipelineState) : PipelineState :=
  { st with changes :=
      (activeIds st).foldl (fun rows sid => detectOne now st.snaps sid
        rows) st.changes }

/-- The rows of `changes` belonging to one source. -/
def changesFor (rows : List ChangeRow) (sid : Int) : List ChangeRow :=
  rows.filter (fun x => x.source_id = sid)

/-- A `(source_id, new_snapshot_id)` key already present in `changes`. -/
def hasKey (rows : List ChangeRow) (sid nid : Int) : Bool :=
  rows.any (fun x => x.source_id = sid ∧ x.new_snapshot_id = nid)

/-- Store with one active source whose two latest snapshots have
different fingerprints, for the C1 witness. -/
def detectSt0 : PipelineState :=
  { sources := [(1, true)]
    snaps := fun sid =>
      if sid = 1 then [⟨2, "H2"⟩, ⟨1, "H1"⟩] else []
    changes := [] }

/-! ### `db.create_baseline_changes` -/

/-- The baseline Change payload: previous snapshot = new snapshot =
the source's latest snapshot, tagged `type: baseline`. -/
def baselineRow (sid snapId : Int) (now : String) : ChangeRow :=
  { source_id := sid
    prev_snapshot_id := snapId
    new_snapshot_id := snapId
    diff_type := some "baseline"
    diff_note := some "Initial baseline for first-run briefing"
    created_at := now }

/-- The collection loop of `create_baseline_changes`: skip sources that
already have any Change (pre-checked against the change rows fetched
before the loop), skip sources without a snapshot, otherwise append a
baseline row for the latest snapshot, breaking once `limit` rows are
collected (the check runs after each append). -/
def baselineGo (snapsOf : Int → List SnapRow) (changes : List ChangeRow)
    (now : String) (limit : Nat) :
    List Int → List ChangeRow → List ChangeRow
  | [], acc => acc
  | sid :: rest, acc =>
    if changes.any (fun c => c.source_id = sid) then
      baselineGo snapsOf changes now limit rest acc
    else
      match (snapsOf sid).head? with
      | none => baselineGo snapsOf changes now limit rest acc
      | some snap =>
        if limit ≤ (acc ++ [baselineRow sid snap.id now]).length then
          acc ++ [baselineRow sid snap.id now]
        else
          baselineGo snapsOf changes now limit rest
            (acc ++ [baselineRow sid snap.id now])

/-- The source `create_baseline_changes`: sources are fetched with
`limit(5000)`, the collected rows are plain-inserted, and the number of
inserted rows is returned. -/
def create_baseline_changes (now : String) (st : PipelineState)
    (limit : Nat := 50) : PipelineState × Nat :=
  ({ st with changes := (st.changes ++
      baselineGo st.snaps st.changes now limit
        ((st.sources.map Prod.fst).take 5000) []) },
    (baselineGo st.snaps st.changes now limit
      ((st.sources.map Prod.fst).take 5000) []).length)

/-- A source the bootstrapper would act on: no Change yet and at least
one snapshot. -/
def qualifiesB (snapsOf : Int → List SnapRow) (changes : List ChangeRow)
    (sid : Int) : Bool :=
  !(changes.any (fun c => c.source_id = sid)) && !(snapsOf sid).isEmpty

/-- Store with 51 sources, each with one snapshot and no Changes, for the
C6 counterexample against the default per-run cap of 50. -/
def manyBaselineSt : PipelineState :=
  { sources := (List.range 51).map (fun i => ((i : Int), true))
    snaps := fun sid => [⟨sid, "H"⟩]
    changes := [] }

/-- Store with one fresh source and one source that already has a
baseline Change, for the C6 witness. -/
def baselineSt0 : PipelineState :=
  { sources := [(1, true), (2, true)]
    snaps := fun sid =>
      if sid = 1 then [⟨7, "HA"⟩] else if sid = 2 then [⟨9, "HB"⟩]
      else []
    changes := [baselineRow 2 9 "t0"] }

/-! Termination of the chunking loop when `o < w`. -/

theorem chunkLoop_isSome (t : List Char) (w o : Nat) (how : o < w) :
    ∀ fuel start acc, t.length - start < fuel →
      (chunkLoop t w o fuel start acc).isSome := by
  intro fuel
  induction fuel with
  | zero => intro start acc h; omega
  | succ f ih =>
    intro start acc h
    rw [chunkLoop]
    by_cases hs : start < t.length
    · simp only [hs, if_true]
      by_cases he : t.length ≤ min t.length (start + w)
      · simp [he]
      · simp only [he, if_false]
        apply ih
        have : min t.length (start + w) = start + w := by omega
        omega
    · simp [hs]

theorem chunk_text_isSome (text : String) (w o : Nat) (how : o < w) :
    (chunk_text text w o).isSome := by
  unfold chunk_text chunk_textFuel
  by_cases h0 : stripChars text.data = []
  · simp [h0]
  · have hw : w ≠ 0 := by omega
    simp only [h0, if_false, hw]
    exact chunkLoop_isSome _ _ _ how _ 0 [] (by omega)

/-! Non-termination when `w ≤ o` and the stripped text is longer than one
window: the window start stays pinned at 0, so no fuel suffices. -/

theorem chunkLoop_stuck (t : List Char) (w o : Nat)
    (hw : 0 < w) (hwo : w ≤ o) (hn : w < t.length) :
    ∀ fuel acc, chunkLoop t w o fuel 0 acc = none := by
  intro fuel
  induction fuel with
  | zero => intro acc; rfl
  | succ f ih =>
    intro acc
    rw [chunkLoop]
    have hs : 0 < t.length := by omega
    have he : min t.length (0 + w) = w := by omega
    simp only [hs, if_true, he]
    have hne : ¬ t.length ≤ w := by omega
    simp only [hne, if_false]
    have : w - o = 0 := by omega
    rw [this]
    exact ih _

theorem stripChars_of_noWS (l : List Char) (h : ∀ c ∈ l, isPyWS c = false) :
    stripChars l = l := by
  unfold stripChars
  have h1 : l.dropWhile isPyWS = l := by
    cases l with
    | nil => rfl
    | cons a as =>
      rw [List.dropWhile_cons_of_neg]
      simp [h a (by simp)]
  rw [h1]
  have h2 : l.reverse.dropWhile isPyWS = l.reverse := by
    cases hr : l.reverse with
    | nil => rfl
    | cons a as =>
      rw [List.dropWhile_cons_of_neg]
      have : a ∈ l := by
        rw [← List.mem_reverse, hr]; simp
      simp [h a this]
  rw [h2, List.reverse_reverse]

/-- When no character of `t` is whitespace, the chunking loop collects
exactly the raw windows. -/
theorem chunkLoop_eq_windows (t : List Char) (w o : Nat)
    (hnws : ∀ c ∈ t, isPyWS c = false) (how : o < w) :
    ∀ fuel start acc, t.length - start < fuel →
      chunkLoop t w o fuel start acc =
        some (acc ++ (windowsF t w o fuel start).map (fun l => ⟨l⟩)) := by
  intro fuel
  induction fuel with
  | zero => intro start acc h; omega
  | succ f ih =>
    intro start acc h
    rw [chunkLoop, windowsF]
    by_cases hs : start < t.length
    · simp only [hs, if_true]
      set e := min t.length (start + w) with he
      have hwin : (t.drop start).take (e - start) ≠ [] := by
        intro hemp
        have : ((t.drop start).take (e - start)).length = 0 := by
          rw [hemp]; rfl
        rw [List.length_take, List.length_drop] at this
        omega
      have hsub : ∀ c ∈ (t.drop start).take (e - start), isPyWS c = false := by
        intro c hc
        exact hnws c (List.mem_of_mem_drop (List.mem_of_mem_take hc))
      rw [stripChars_of_noWS _ hsub]
      simp only [hwin, if_neg, if_false]
      by_cases hend : t.length ≤ e
      · simp [hend]
      · simp only [hend, if_false]
        rw [ih _ _ (by omega)]
        simp
    · simp [hs]

/-- Joining the tails (past the overlap) of the visited windows yields the
suffix of the text past `start + o`. -/
theorem windows_dropConcat (t : List Char) (w o : Nat) (how : o < w) :
    ∀ fuel start, t.length - start < fuel →
      ((windowsF t w o fuel start).map (List.drop o)).flatten =
        t.drop (start + o) := by
  intro fuel
  induction fuel with
  | zero => intro start h; omega
  | succ f ih =>
    intro start h
    rw [windowsF]
    by_cases hs : start < t.length
    · simp only [hs, if_true]
      set e := min t.length (start + w) with he
      by_cases hend : t.length ≤ e
      · have hen : e = t.length := by omega
        simp only [hend, if_true, List.map_cons, List.map_nil,
          List.flatten_cons, List.flatten_nil, List.append_nil]
        rw [List.drop_take, List.drop_drop]
        have h1 : e - start - o = t.length - (o + start) := by omega
        rw [h1]
        exact List.take_of_length_le (by rw [List.length_drop]; omega)
      · have hen : e = start + w := by omega
        simp only [hend, if_false, List.map_cons, List.flatten_cons]
        rw [ih (e - o) (by omega)]
        rw [List.drop_take, List.drop_drop]
        have h1 : e - o + o = e := by omega
        rw [h1]
        have h3 : t.drop e = (t.drop (start + o)).drop (e - start - o) := by
          rw [List.drop_drop]
          congr 1
          omega
        rw [h3]
        exact List.take_append_drop _ _
    · simp only [hs, if_false, List.map_nil, List.flatten_nil]
      rw [eq_comm, List.drop_eq_nil_iff]
      omega

theorem uniqueConcat_cons (o : Nat) (c : String) (cs : List String) :
    uniqueConcat o (c :: cs) =
      ⟨c.data ++ ((cs.map String.data).map (List.drop o)).flatten⟩ := rfl

/-- C10: `chunk_text` terminates on every input when `0 ≤ overlap_chars <
chunk_size_chars` (within `length + 1` loop iterations), while for
`overlap_chars ≥ chunk_size_chars > 0` and a stripped text longer than one
window the loop start never advances, so no amount of fuel finishes it:
the strict inequality is a required precondition. -/
theorem chunk_text_termination :
    (∀ (text : String) (w o : Nat), o < w → (chunk_text text w o).isSome) ∧
    (∀ (text : String) (w o fuel : Nat), 0 < w → w ≤ o →
      w < (stripChars text.data).length →
      chunk_textFuel fuel text w o = none) := by
  constructor
  · intro text w o h
    exact chunk_text_isSome text w o h
  · intro text w o fuel hw hwo hn
    unfold chunk_textFuel
    have h0 : ¬ stripChars text.data = [] := by
      intro h
      rw [h] at hn
      simp at hn
    have hw' : ¬ w = 0 := by omega
    simp only [h0, if_false, hw']
    exact chunkLoop_stuck _ _ _ hw hwo hn fuel []

/-- Witness for C10 at concrete inputs: window 5 / overlap 2 terminates,
window 2 / overlap 5 on an 8-character text returns no result even with
fuel 100. -/
theorem chunk_text_termination_witness :
    (chunk_text "risk agent window text" 5 2).isSome ∧
    chunk_textFuel 100 "abcdefgh" 2 5 = none :=
  ⟨chunk_text_termination.1 "risk agent window text" 5 2 (by decide),
   chunk_text_termination.2 "abcdefgh" 2 5 100 (by decide) (by decide)
     (by decide)⟩

/-- C5 (amended): with `0 < o < w`, the chunks are the per-window stripped
nonempty windows of the stripped input; when no character of the stripped
text is whitespace (so no window strip can delete characters), the first
chunk followed by each later chunk minus its `o`-character overlap prefix
reconstructs the stripped text, and an input that strips to empty yields
the empty chunk sequence. -/
theorem chunk_text_roundtrip (text : String) (w o : Nat)
    (ho : 0 < o) (how : o < w) :
    (pyStrip text = "" → chunk_text text w o = some []) ∧
    ((∀ c ∈ stripChars text.data, isPyWS c = false) →
      ∃ cs, chunk_text text w o = some cs ∧
        uniqueConcat o cs = pyStrip text) := by
  have hw : 0 < w := by omega
  constructor
  · intro h
    have h0 : stripChars text.data = [] := congrArg String.data h
    unfold chunk_text chunk_textFuel
    simp [h0]
  · intro hnws
    by_cases h0 : stripChars text.data = []
    · refine ⟨[], ?_, ?_⟩
      · unfold chunk_text chunk_textFuel
        simp [h0]
      · show "" = pyStrip text
        unfold pyStrip
        rw [h0]
    · set t := stripChars text.data with ht
      have hn : 0 < t.length := List.length_pos.mpr h0
      have hw' : ¬ w = 0 := by omega
      have hloop := chunkLoop_eq_windows t w o hnws how (t.length + 1) 0 []
        (by omega)
      refine ⟨(windowsF t w o (t.length + 1) 0).map (fun l => ⟨l⟩), ?_, ?_⟩
      · unfold chunk_text chunk_textFuel
        simp only [h0, if_false, hw']
        rw [← ht, hloop]
        simp
      · rw [windowsF]
        simp only [hn, if_true]
        set e := min t.length (0 + w) with he
        have hwin : (t.drop 0).take (e - 0) = t.take e := by simp
        have hrest : (((if t.length ≤ e then []
              else windowsF t w o t.length (e - o))).map
              (List.drop o)).flatten = t.drop e := by
          by_cases hend : t.length ≤ e
          · have : e = t.length := by omega
            simp [hend, this]
          · have hew : e = w := by omega
            simp only [hend, if_false]
            rw [windows_dropConcat t w o how t.length (e - o) (by omega)]
            congr 1
            omega
        rw [List.map_cons, uniqueConcat_cons]
        have hdata : ∀ l : List (List Char),
            (l.map (fun x => (⟨x⟩ : String))).map String.data = l := by
          intro l
          rw [List.map_map]
          have hcomp : (String.data ∘ fun x => (⟨x⟩ : String)) = id := rfl
          rw [hcomp, List.map_id]
        rw [hdata, hrest, hwin]
        show (⟨t.take e ++ t.drop e⟩ : String) = pyStrip text
        rw [List.take_append_drop]
        rfl

/-- C5 counterexample to the claim as stated: chunking `"ab cd"` with
window 3 and overlap 1 strips a space at a window boundary; the chunks are
`["ab", "cd"]`, their unique content concatenated is `"abcd"`-like and not
the input, and the space character occurs in no chunk at all, so no
concatenation of chunk content can reconstruct the text. -/
theorem chunk_text_roundtrip_counterexample :
    chunk_text "ab cd" 3 1 = some ["ab", "cd"] ∧
    uniqueConcat 1 ["ab", "cd"] ≠ "ab cd" ∧
    ' ' ∈ "ab cd".data ∧ ' ' ∉ "ab".data ∧ ' ' ∉ "cd".data := by
  decide

/-- Witness for C5 on a whitespace-free text: chunking `"abcde"` with
window 3, overlap 1 round-trips. -/
theorem chunk_text_roundtrip_witness :
    ∃ cs, chunk_text "abcde" 3 1 = some cs ∧
      uniqueConcat 1 cs = pyStrip "abcde" :=
  (chunk_text_roundtrip "abcde" 3 1 (by decide) (by decide)).2 (by decide)

theorem lcsAux_self : ∀ (fuel : Nat) (a : List String),
    a.length ≤ fuel → lcsAux fuel a a = a := by
  intro fuel
  induction fuel with
  | zero =>
    intro a h
    have : a = [] := by
      cases a with
      | nil => rfl
      | cons x xs => simp at h
    rw [this]
    rfl
  | succ f ih =>
    intro a h
    cases a with
    | nil => rfl
    | cons x xs =>
      rw [lcsAux, if_pos rfl,
        ih xs (by simp only [List.length_cons] at h; omega)]

theorem lcsLines_self (a : List String) : lcsLines a a = a :=
  lcsAux_self _ a (by omega)

theorem emitDiff_self : ∀ a : List String,
    emitDiff a a a = a.map DiffLine.keep := by
  intro a
  induction a with
  | nil => rfl
  | cons c cs ih =>
    rw [emitDiff]
    have htw : (c :: cs).takeWhile (· ≠ c) = [] := by
      rw [List.takeWhile_cons_of_neg]
      simp
    have hdw : (c :: cs).dropWhile (· ≠ c) = c :: cs := by
      rw [List.dropWhile_cons_of_neg]
      simp
    rw [htw, hdw]
    simp [ih]

theorem insertedLines_self (a : List String) : insertedLines a a = [] := by
  unfold insertedLines ndiffModel
  rw [lcsLines_self, emitDiff_self]
  induction a with
  | nil => rfl
  | cons c cs ih => simp [ih]

/-- C4 (amended): the delta text is the inserted lines of the line diff
joined with newlines and then *stripped of surrounding whitespace*
(truncated around a marker when longer than the cap); identical texts give
the empty delta, and old `"A\nB"` against new `"A\nB\nC"` gives `"C"`. -/
theorem delta_added_text_spec :
    (∀ (x : String) (maxc : Nat), delta_added_text x x maxc = "") ∧
    (∀ (old_text new_text : String) (maxc : Nat),
      (pyStrip (insertedJoined old_text new_text)).data.length ≤ maxc →
      delta_added_text old_text new_text maxc =
        pyStrip (insertedJoined old_text new_text)) ∧
    delta_added_text "A\nB" "A\nB\nC" = "C" := by
  refine ⟨?_, ?_, by decide⟩
  · intro x maxc
    unfold delta_added_text insertedJoined
    rw [insertedLines_self]
    rfl
  · intro old_text new_text maxc h
    unfold delta_added_text
    generalize hg : pyStrip (insertedJoined old_text new_text) = delta at h ⊢
    unfold truncateDelta
    by_cases h0 : delta.data = []
    · rw [if_pos h0]
      cases delta with
      | mk l =>
        simp at h0
        rw [h0]
    · rw [if_neg h0, if_neg (by omega)]

/-- C4 counterexample to the claim as stated: with old text `""` and new
text `" "` the diff inserts the single line `" "`, whose concatenation is
`" "`, but the delta text is `""` because the code strips the joined
result — the delta is not exactly the concatenated inserted lines. -/
theorem delta_added_text_counterexample :
    insertedJoined "" " " = " " ∧ delta_added_text "" " " = "" ∧
    ("" : String) ≠ " " := by
  decide

/-- Witness for C4 at concrete inputs, including the no-truncation case
instantiated at the spec scenario. -/
theorem delta_added_text_spec_witness :
    delta_added_text "same\ntext" "same\ntext" 12000 = "" ∧
    delta_added_text "A\nB" "A\nB\nC" 12000 =
      pyStrip (insertedJoined "A\nB" "A\nB\nC") :=
  ⟨delta_added_text_spec.1 "same\ntext" 12000,
   delta_added_text_spec.2.1 "A\nB" "A\nB\nC" 12000 (by decide)⟩

theorem asListGo_length (max_items max_len : Nat) :
    ∀ (items : List String) (outLen : Nat), outLen < max_items →
      (asListGo max_items max_len items outLen).length + outLen ≤
        max_items := by
  intro items
  induction items with
  | nil =>
    intro outLen h
    rw [asListGo]
    simp only [List.length_nil, Nat.zero_add]
    omega
  | cons item rest ih =>
    intro outLen h
    rw [asListGo]
    by_cases hb : (pyStrip item).data = []
    · simp only [hb, if_true]
      exact ih outLen h
    · simp only [hb, if_false]
      by_cases hstop : max_items ≤ outLen + 1
      · simp only [hstop, if_true, List.length_cons, List.length_nil]
        omega
      · simp only [hstop, if_false]
        have := ih (outLen + 1) (by omega)
        simp only [List.length_cons]
        omega

theorem asListGo_item_len (max_items max_len : Nat) :
    ∀ (items : List String) (outLen : Nat),
      ∀ s ∈ asListGo max_items max_len items outLen,
        s.data.length ≤ max_len := by
  intro items
  induction items with
  | nil => intro outLen s hs; simp [asListGo] at hs
  | cons item rest ih =>
    intro outLen s hs
    rw [asListGo] at hs
    by_cases hb : (pyStrip item).data = []
    · simp only [hb, if_true] at hs
      exact ih outLen s hs
    · simp only [hb, if_false] at hs
      rcases List.mem_cons.mp hs with h | h
      · rw [h]
        unfold strTake
        simp only []
        exact List.length_take_le _ _
      · by_cases hstop : max_items ≤ outLen + 1
        · simp [hstop] at h
        · simp only [hstop, if_false] at h
          exact ih (outLen + 1) s h

theorem as_list_of_str_spec (x : Option (List String)) (max_len : Nat) :
    ∀ l, as_list_of_str x 5 max_len = some l →
      l.length ≤ 5 ∧ ∀ s ∈ l, s.data.length ≤ max_len := by
  intro l hl
  unfold as_list_of_str at hl
  cases x with
  | none => simp at hl
  | some items =>
    simp only at hl
    by_cases h0 : asListGo 5 max_len items 0 = []
    · simp [h0] at hl
    · rw [if_neg h0] at hl
      have hl' : l = asListGo 5 max_len items 0 := by
        cases hl
        rfl
      subst hl'
      constructor
      · have := asListGo_length 5 max_len items 0 (by omega)
        omega
      · exact asListGo_item_len 5 max_len items 0

/-- C3: `safe_output` replaces a missing or blank title/summary with the
fixed defaults, caps the two list fields at 5 items of bounded length,
clamps a present risk score into `[1, 5]` (and leaves an absent one
unset), and clamps confidence into `[0, 1]`. -/
theorem safe_output_sanitization (o : RawOutput) :
    ((o.title = none ∨ pyStrip (o.title.getD "") = "") →
      (safe_output o).title = "Update detected") ∧
    ((o.summary = none ∨ pyStrip (o.summary.getD "") = "") →
      (safe_output o).summary = "Update detected. Details unknown.") ∧
    (∀ l, (safe_output o).affected_signals = some l →
      l.length ≤ 5 ∧ ∀ s ∈ l, s.data.length ≤ 120) ∧
    (∀ l, (safe_output o).recommended_actions = some l →
      l.length ≤ 5 ∧ ∀ s ∈ l, s.data.length ≤ 140) ∧
    (∀ r, o.risk_score = some r →
      (safe_output o).risk_score = some (max 1 (min 5 r)) ∧
        1 ≤ max 1 (min 5 r) ∧ max 1 (min 5 r) ≤ 5) ∧
    (o.risk_score = none → (safe_output o).risk_score = none) ∧
    0 ≤ (safe_output o).confidence ∧ (safe_output o).confidence ≤ 1 := by
  refine ⟨?_, ?_, ?_, ?_, ?_, ?_, ?_, ?_⟩
  · intro h
    unfold safe_output
    have hb : (pyStrip (o.title.getD "")).data = [] := by
      rcases h with h | h
      · rw [h]; rfl
      · rw [h]
    simp [hb]
    decide
  · intro h
    unfold safe_output
    have hb : (pyStrip (o.summary.getD "")).data = [] := by
      rcases h with h | h
      · rw [h]; rfl
      · rw [h]
    simp [hb]
    decide
  · intro l hl
    exact as_list_of_str_spec o.affected_signals 120 l hl
  · intro l hl
    exact as_list_of_str_spec o.recommended_actions 140 l hl
  · intro r hr
    refine ⟨?_, le_max_left _ _,
      max_le (by omega) (min_le_left _ _)⟩
    unfold safe_output
    simp [hr]
  · intro h
    unfold safe_output
    simp [h]
  · exact le_max_left _ _
  · exact max_le (by norm_num)
      (le_trans (min_le_left _ _) (le_refl 1))

/-- Witness for C3 at a concrete raw object with a blank title, a missing
summary, an oversized signal list, risk score 9 and confidence 7/2. -/
theorem safe_output_sanitization_witness :
    (safe_output
      { title := some "   ", risk_score := some 9,
        affected_signals := some ["a", "b", "c", "d", "e", "f", "g"],
        confidence := some (7 / 2) }).title = "Update detected" ∧
    (safe_output
      { title := some "   ", risk_score := some 9,
        affected_signals := some ["a", "b", "c", "d", "e", "f", "g"],
        confidence := some (7 / 2) }).risk_score = some 5 := by
  constructor
  · exact (safe_output_sanitization _).1 (Or.inr (by decide))
  · have h := ((safe_output_sanitization
      { title := some "   ", risk_score := some 9,
        affected_signals := some ["a", "b", "c", "d", "e", "f", "g"],
        confidence := some (7 / 2) }).2.2.2.2.1 9 rfl).1
    rw [h]
    norm_num

theorem stripChars_cons_ne_nil (c : Char) (rest : List Char)
    (h : isPyWS c = false) : stripChars (c :: rest) ≠ [] := by
  unfold stripChars
  rw [List.dropWhile_cons_of_neg (by simp [h])]
  intro hemp
  rw [List.reverse_eq_nil_iff, List.dropWhile_eq_nil_iff] at hemp
  have := hemp c (by simp)
  simp [h] at this

/-- C2 (amended): when triage reports not-relevant or a score below the
threshold, the analysis model is never invoked and the persisted
placeholder insight has risk score 1, confidence 0.55, category the
stripped 80-character-capped triage theme (`None` when that is blank),
the gate summary template citing the theme and hint — and
`affected_signals` / `recommended_actions` *omitted from the payload*
(`safe_output` collapses the empty lists to `None`, which
`insert_insight` drops), not stored as empty lists. -/
theorem triage_gate_insight (threshold : Int) (analyze : Unit → RawOutput)
    (cid : Int) (agent : String) (t : TriageRaw)
    (hgate : ¬ (t.is_relevant.getD false) = true ∨
      t.relevance_score.getD 0 < threshold) :
    (run_change_step threshold analyze cid agent t).2 = 0 ∧
    (run_change_step threshold analyze cid agent t).1.risk_score =
      some 1 ∧
    (run_change_step threshold analyze cid agent t).1.confidence =
      55 / 100 ∧
    (run_change_step threshold analyze cid agent t).1.affected_signals =
      none ∧
    (run_change_step threshold analyze cid agent t).1.recommended_actions
      = none ∧
    (run_change_step threshold analyze cid agent t).1.category =
      (if (strTake (pyStrip (themeOf t)) 80).data = [] then none
       else some (strTake (pyStrip (themeOf t)) 80)) ∧
    (run_change_step threshold analyze cid agent t).1.summary =
      strTake (pyStrip (gateSummary (themeOf t) (hintOf t))) 1200 := by
  unfold run_change_step
  rw [if_pos hgate]
  refine ⟨rfl, ?_, ?_, rfl, rfl, ?_, ?_⟩
  · simp only [mkInsightPayload, safe_output]
    have h1 : max (1 : Int) (min 5 1) = 1 := by omega
    rw [h1]
  · simp only [mkInsightPayload, safe_output]
    rw [Option.getD_some, min_eq_right (by norm_num),
      max_eq_right (by norm_num)]
  · simp only [mkInsightPayload, safe_output]
  · simp only [mkInsightPayload, safe_output]
    have hne : (pyStrip
        (gateSummary (themeOf t) (hintOf t))).data ≠ [] := by
      show stripChars (gateSummary (themeOf t) (hintOf t)).data ≠ []
      exact stripChars_cons_ne_nil 'T' _ (by decide)
    rw [Option.getD_some, if_neg hne]

/-- C2 counterexample to the claim as stated: on the spec's own scenario
(threshold 70, triage not relevant with score 10) the persisted payload
does not contain empty `affected_signals`/`recommended_actions` lists —
both keys are omitted (`None`). -/
theorem triage_gate_counterexample :
    (run_change_step 70 (fun _ => ({} : RawOutput)) 1
        "groq-digital-risk-agent" triageLow).1.affected_signals
      ≠ some [] ∧
    (run_change_step 70 (fun _ => ({} : RawOutput)) 1
        "groq-digital-risk-agent" triageLow).1.affected_signals = none ∧
    (run_change_step 70 (fun _ => ({} : RawOutput)) 1
        "groq-digital-risk-agent" triageLow).1.recommended_actions =
      none := by
  refine ⟨by decide, rfl, rfl⟩

/-- Witness for C2 at the spec scenario: no analysis call, risk score 1,
confidence 0.55. -/
theorem triage_gate_insight_witness :
    (run_change_step 70 (fun _ => ({} : RawOutput)) 1 "agent"
      triageLow).2 = 0 ∧
    (run_change_step 70 (fun _ => ({} : RawOutput)) 1 "agent"
      triageLow).1.risk_score = some 1 ∧
    (run_change_step 70 (fun _ => ({} : RawOutput)) 1 "agent"
      triageLow).1.confidence = 55 / 100 :=
  ⟨(triage_gate_insight 70 (fun _ => ({} : RawOutput)) 1 "agent"
      triageLow (by decide)).1,
   (triage_gate_insight 70 (fun _ => ({} : RawOutput)) 1 "agent"
      triageLow (by decide)).2.1,
   (triage_gate_insight 70 (fun _ => ({} : RawOutput)) 1 "agent"
      triageLow (by decide)).2.2.1⟩

theorem backoff_cons (base : ℚ) (attempt r : Nat) :
    sleep_backoff base attempt ::
        (List.range r).map (fun i => base * 2 ^ (attempt + 1 + i)) =
      (List.range (r + 1)).map (fun i => base * 2 ^ (attempt + i)) := by
  rw [List.range_succ_eq_map, List.map_cons, List.map_map]
  congr 1
  apply List.map_congr_left
  intro i _
  simp only [Function.comp_apply]
  congr 2
  omega

theorem callGo_all_fail {J : Type} (base : ℚ) (oracle : Nat → Option J) :
    ∀ remaining attempt, 0 < remaining →
      (∀ i, attempt ≤ i → i < attempt + remaining → oracle i = none) →
      (callGo base oracle remaining attempt).result = .error () ∧
      (callGo base oracle remaining attempt).calls = remaining ∧
      (callGo base oracle remaining attempt).sleeps =
        (List.range (remaining - 1)).map
          (fun i => base * 2 ^ (attempt + i)) := by
  intro remaining
  induction remaining with
  | zero => intro attempt h; omega
  | succ r ih =>
    intro attempt _ hfail
    rw [callGo]
    rw [hfail attempt (le_refl _) (by omega)]
    by_cases hr : r = 0
    · subst hr
      exact ⟨rfl, rfl, rfl⟩
    · simp only [hr, if_false]
      obtain ⟨hres, hcalls, hsleeps⟩ := ih (attempt + 1) (by omega)
        (fun i h1 h2 => hfail i (by omega) (by omega))
      refine ⟨hres, ?_, ?_⟩
      · show (callGo base oracle r (attempt + 1)).calls + 1 = r + 1
        omega
      · show sleep_backoff base attempt ::
            (callGo base oracle r (attempt + 1)).sleeps =
          (List.range (r + 1 - 1)).map (fun i => base * 2 ^ (attempt + i))
        rw [hsleeps]
        obtain ⟨r', rfl⟩ : ∃ r', r = r' + 1 := ⟨r - 1, by omega⟩
        simp only [Nat.add_sub_cancel]
        exact backoff_cons base attempt r'

theorem callGo_first_success {J : Type} (base : ℚ)
    (oracle : Nat → Option J) :
    ∀ k remaining attempt j, k < remaining →
      oracle (attempt + k) = some j →
      (∀ i, attempt ≤ i → i < attempt + k → oracle i = none) →
      (callGo base oracle remaining attempt).result = .ok j ∧
      (callGo base oracle remaining attempt).calls = k + 1 ∧
      (callGo base oracle remaining attempt).sleeps =
        (List.range k).map (fun i => base * 2 ^ (attempt + i)) := by
  intro k
  induction k with
  | zero =>
    intro remaining attempt j hk hj _
    obtain ⟨r, rfl⟩ : ∃ r, remaining = r + 1 := ⟨remaining - 1, by omega⟩
    rw [callGo]
    rw [Nat.add_zero] at hj
    rw [hj]
    exact ⟨rfl, rfl, rfl⟩
  | succ k ih =>
    intro remaining attempt j hk hj hfail
    obtain ⟨r, rfl⟩ : ∃ r, remaining = r + 1 := ⟨remaining - 1, by omega⟩
    rw [callGo]
    rw [hfail attempt (le_refl _) (by omega)]
    have hr : ¬ r = 0 := by omega
    simp only [hr, if_false]
    obtain ⟨hres, hcalls, hsleeps⟩ := ih r (attempt + 1) j (by omega)
      (by rw [← hj]; congr 1; omega)
      (fun i h1 h2 => hfail i (by omega) (by omega))
    refine ⟨hres, ?_, ?_⟩
    · show (callGo base oracle r (attempt + 1)).calls + 1 = k + 1 + 1
      omega
    · show sleep_backoff base attempt ::
          (callGo base oracle r (attempt + 1)).sleeps =
        (List.range (k + 1)).map (fun i => base * 2 ^ (attempt + i))
      rw [hsleeps]
      exact backoff_cons base attempt k

/-- C7: an LLM call is attempted up to `maxRetries` times (default 4),
sleeping `base * 2 ^ attempt` between consecutive attempts; if every
attempt fails the call makes exactly `maxRetries` attempts, performs the
geometric sleeps for all but the last attempt, and raises a definitive
error, while a first success at attempt `k` returns the parsed value
after `k + 1` calls and the first `k` backoff sleeps. -/
theorem llm_retry_backoff {J : Type} (maxRetries : Nat) (base : ℚ)
    (oracle : Nat → Option J) :
    (0 < maxRetries → (∀ i, i < maxRetries → oracle i = none) →
      (call_chat_json oracle maxRetries base).result = .error () ∧
      (call_chat_json oracle maxRetries base).calls = maxRetries ∧
      (call_chat_json oracle maxRetries base).sleeps =
        (List.range (maxRetries - 1)).map (fun i => base * 2 ^ i)) ∧
    (∀ k j, k < maxRetries → oracle k = some j →
      (∀ i, i < k → oracle i = none) →
      (call_chat_json oracle maxRetries base).result = .ok j ∧
      (call_chat_json oracle maxRetries base).calls = k + 1 ∧
      (call_chat_json oracle maxRetries base).sleeps =
        (List.range k).map (fun i => base * 2 ^ i)) := by
  constructor
  · intro hpos hfail
    unfold call_chat_json
    obtain ⟨h1, h2, h3⟩ := callGo_all_fail base oracle maxRetries 0 hpos
      (fun i _ hlt => hfail i (by omega))
    refine ⟨h1, h2, ?_⟩
    rw [h3]
    simp only [Nat.zero_add]
  · intro k j hk hj hfail
    unfold call_chat_json
    obtain ⟨h1, h2, h3⟩ := callGo_first_success base oracle k maxRetries
      0 j hk (by rw [Nat.zero_add]; exact hj)
      (fun i _ hlt => hfail i (by omega))
    refine ⟨h1, h2, ?_⟩
    rw [h3]
    simp only [Nat.zero_add]

/-- Witness for C7: with all four default attempts failing the trace is
an error after 4 calls with sleeps 1.25, 2.5, 5; with success at the
third attempt the value is returned after 3 calls and sleeps 1.25, 2.5. -/
theorem llm_retry_backoff_witness :
    ((call_chat_json (fun _ => (none : Option Nat)) 4 (5 / 4)).result =
        .error () ∧
      (call_chat_json (fun _ => (none : Option Nat)) 4 (5 / 4)).calls =
        4 ∧
      (call_chat_json (fun _ => (none : Option Nat)) 4 (5 / 4)).sleeps =
        (List.range 3).map (fun i => (5 / 4 : ℚ) * 2 ^ i)) ∧
    ((call_chat_json (fun i => if i < 2 then none else some 42) 4
        (5 / 4)).result = .ok 42 ∧
      (call_chat_json (fun i => if i < 2 then none else some 42) 4
        (5 / 4)).calls = 3 ∧
      (call_chat_json (fun i => if i < 2 then none else some 42) 4
        (5 / 4)).sleeps =
        (List.range 2).map (fun i => (5 / 4 : ℚ) * 2 ^ i)) :=
  ⟨(llm_retry_backoff 4 (5 / 4) (fun _ => (none : Option Nat))).1
      (by decide) (fun i _ => rfl),
   (llm_retry_backoff 4 (5 / 4)
      (fun i => if i < 2 then none else some 42)).2 2 42 (by decide) rfl
      (fun i hi => by interval_cases i <;> rfl)⟩

/-- C8 (amended): the parser strips the input, handles code-fence
wrapping by taking the first fenced segment and deleting the first
occurrence of the substring `"json"` *anywhere in it* (intended as the
language tag — a fenced top-level `"json"` key is corrupted instead),
then tries a strict parse; on failure it parses the slice from the first
`\x7b` to the last `\x7d`, and when the strict parse fails and no such
brace pair exists (or the slice parse also fails) the call raises. -/
theorem extract_json_only_spec {J : Type} (loads : String → Option J)
    (s : String) :
    (∀ j, loads ⟨preprocessFence (stripChars s.data)⟩ = some j →
      extract_json_only loads s = .ok j) ∧
    (loads ⟨preprocessFence (stripChars s.data)⟩ = none →
      ((preprocessFence (stripChars s.data)).findIdx?
          (fun c => c = openBrace) = none ∨
        lastIdxOf closeBrace (preprocessFence (stripChars s.data)) =
          none ∨
        (∀ st en, (preprocessFence (stripChars s.data)).findIdx?
            (fun c => c = openBrace) = some st →
          lastIdxOf closeBrace (preprocessFence (stripChars s.data)) =
            some en → en ≤ st)) →
      extract_json_only loads s = .error ()) ∧
    (∀ st en, loads ⟨preprocessFence (stripChars s.data)⟩ = none →
      (preprocessFence (stripChars s.data)).findIdx?
        (fun c => c = openBrace) = some st →
      lastIdxOf closeBrace (preprocessFence (stripChars s.data)) =
        some en → st < en →
      extract_json_only loads s =
        match loads ⟨((preprocessFence (stripChars s.data)).drop
            st).take (en + 1 - st)⟩ with
        | some j => .ok j
        | none => .error ()) ∧
    preprocessFence
        (stripChars "```json\n\x7b\"a\": 1\x7d\n```".data) =
      "\x7b\"a\": 1\x7d".data := by
  refine ⟨?_, ?_, ?_, by decide⟩
  · intro j hj
    unfold extract_json_only
    rw [hj]
  · intro hnone hbrace
    unfold extract_json_only
    rw [hnone]
    rcases h1 : (preprocessFence (stripChars s.data)).findIdx?
        (fun c => c = openBrace) with _ | st
    · rfl
    · rcases h2 : lastIdxOf closeBrace
          (preprocessFence (stripChars s.data)) with _ | en
      · rfl
      · rcases hbrace with hb | hb | hb
        · rw [h1] at hb; cases hb
        · rw [h2] at hb; cases hb
        · have := hb st en h1 h2
          simp only [if_pos this]
  · intro st en hnone h1 h2 hlt
    unfold extract_json_only
    rw [hnone, h1, h2]
    have hle : ¬ en ≤ st := by omega
    simp only [hle, if_false]

/-- C8 counterexample to the claim as stated: for the fenced input
`"```\x7b\"json\": 1\x7d```"` a parser that strips fence markers and an
optional language tag passes `\x7b"json": 1\x7d` to the strict parse,
but the code deletes the first `"json"` occurrence — the object's only
key — and parses `\x7b"": 1\x7d` instead. -/
theorem extract_json_only_counterexample :
    preprocessFence
        (stripChars "```\x7b\"json\": 1\x7d```".data) =
      "\x7b\"\": 1\x7d".data ∧
    stripFencesSpecView
        (stripChars "```\x7b\"json\": 1\x7d```".data) =
      "\x7b\"json\": 1\x7d".data ∧
    ("\x7b\"\": 1\x7d".data ≠ "\x7b\"json\": 1\x7d".data) := by
  decide

/-- Witness for C8 at concrete inputs: a parse hit is returned as-is, an
input with no brace pair errors, and a failing strict parse falls back to
the brace slice. -/
theorem extract_json_only_spec_witness :
    extract_json_only (fun s => if s = "\x7b\x7d" then some 7 else none)
      " \x7b\x7d " = .ok 7 ∧
    extract_json_only (fun _ => (none : Option Nat)) "no braces here" =
      .error () ∧
    extract_json_only
      (fun s => if s = "\x7b1\x7d" then some 9 else none)
      "noise \x7b1\x7d noise" = .ok 9 := by
  refine ⟨?_, ?_, ?_⟩
  · exact (extract_json_only_spec
      (fun s => if s = "\x7b\x7d" then some 7 else none)
      " \x7b\x7d ").1 7 (by decide)
  · exact (extract_json_only_spec (fun _ => (none : Option Nat))
      "no braces here").2.1 rfl (Or.inl (by decide))
  · have h := (extract_json_only_spec
      (fun s => if s = "\x7b1\x7d" then some 9 else none)
      "noise \x7b1\x7d noise").2.2.1 6 8 (by decide) (by decide)
      (by decide) (by decide)
    rw [h]
    rfl

theorem mem_upsertSnapshotRecord (store : List ScrapeResult)
    (r : ScrapeResult) : r ∈ upsertSnapshotRecord store r := by
  unfold upsertSnapshotRecord
  by_cases h : store.any
      (fun x => x.url = r.url ∧ x.clean_text = r.clean_text)
  · rw [if_pos h]
    obtain ⟨x, hx, hkey⟩ := List.any_eq_true.mp h
    refine List.mem_map.mpr ⟨x, hx, ?_⟩
    rw [if_pos (by exact of_decide_eq_true hkey)]
  · rw [if_neg h]
    simp

/-- C9 (amended): a fetched page whose cleaned text is shorter than the
configured minimum (default 1200) and whose HTTP status is below 400 is
marked as a skip with the `clean_text_too_short` reason — but the record
is still upserted into the snapshots store (the code deliberately stores
skip records for debugging), so a row *is* recorded. -/
theorem scrape_min_length_gate (store : List ScrapeResult) (url : String)
    (status_code : Int) (clean_text : String) (min_clean_len : Nat)
    (hstatus : status_code < 400)
    (hshort : strLen clean_text < min_clean_len) :
    (fetch_and_clean url status_code clean_text min_clean_len).should_skip = true ∧
    (fetch_and_clean url status_code clean_text min_clean_len).skip_reason = some ("clean_text_too_short:" ++
        toString (strLen clean_text) ++ "<min:" ++
        toString min_clean_len) ∧
    fetch_and_clean url status_code clean_text min_clean_len ∈
      (scrape_and_store store url status_code clean_text
        min_clean_len).1 := by
  refine ⟨?_, ?_, ?_⟩
  · unfold fetch_and_clean
    rw [if_neg (by omega), if_pos hshort]
  · unfold fetch_and_clean
    rw [if_neg (by omega), if_pos hshort]
  · exact mem_upsertSnapshotRecord store _

/-- C9 counterexample to the claim as stated: a 200-status page with a
10-character cleaned text is marked skip / too-short, yet
`scrape_and_store` still records it — starting from an empty store the
snapshots table afterwards holds the record, where the claim asserts no
snapshot row is recorded. -/
theorem scrape_min_length_counterexample :
    (fetch_and_clean "https://example.com/p" 200 "short page").should_skip = true ∧
    (fetch_and_clean "https://example.com/p" 200 "short page").skip_reason = some "clean_text_too_short:10<min:1200" ∧
    (scrape_and_store [] "https://example.com/p" 200 "short page").1 =
      [fetch_and_clean "https://example.com/p" 200 "short page"] ∧
    (scrape_and_store [] "https://example.com/p" 200 "short page").1 ≠
      [] := by
  refine ⟨rfl, rfl, rfl, by decide⟩

/-- Witness for C9 at a concrete short page. -/
theorem scrape_min_length_gate_witness :
    (fetch_and_clean "u" 200 "abc" 1200).should_skip = true ∧
    (fetch_and_clean "u" 200 "abc" 1200).skip_reason =
      some ("clean_text_too_short:" ++ toString (strLen "abc") ++
        "<min:" ++ toString 1200) ∧
    fetch_and_clean "u" 200 "abc" 1200 ∈
      (scrape_and_store [] "u" 200 "abc" 1200).1 :=
  scrape_min_length_gate [] "u" 200 "abc" 1200 (by decide) (by decide)

theorem hasKey_upsertChange_self (rows : List ChangeRow) (r : ChangeRow) :
    hasKey (upsertChange rows r) r.source_id r.new_snapshot_id = true := by
  unfold hasKey upsertChange
  by_cases h : rows.any (fun x => x.source_id = r.source_id ∧
      x.new_snapshot_id = r.new_snapshot_id)
  · rw [if_pos h]
    obtain ⟨x, hx, hkey⟩ := List.any_eq_true.mp h
    refine List.any_eq_true.mpr ⟨r, ?_, by simp⟩
    refine List.mem_map.mpr ⟨x, hx, ?_⟩
    rw [if_pos (of_decide_eq_true hkey)]
  · rw [if_neg h]
    refine List.any_eq_true.mpr ⟨r, by simp, by simp⟩

theorem hasKey_upsertChange_mono (rows : List ChangeRow) (r : ChangeRow)
    (sid nid : Int) (h : hasKey rows sid nid = true) :
    hasKey (upsertChange rows r) sid nid = true := by
  by_cases hk : sid = r.source_id ∧ nid = r.new_snapshot_id
  · obtain ⟨h1, h2⟩ := hk
    subst h1; subst h2
    exact hasKey_upsertChange_self rows r
  · unfold hasKey at h ⊢
    obtain ⟨x, hx, hkey⟩ := List.any_eq_true.mp h
    have hkey' : x.source_id = sid ∧ x.new_snapshot_id = nid :=
      of_decide_eq_true hkey
    unfold upsertChange
    by_cases hany : rows.any (fun y => y.source_id = r.source_id ∧
        y.new_snapshot_id = r.new_snapshot_id)
    · rw [if_pos hany]
      refine List.any_eq_true.mpr ⟨x, ?_, hkey⟩
      refine List.mem_map.mpr ⟨x, hx, ?_⟩
      rw [if_neg]
      intro hc
      exact hk ⟨by rw [← hkey'.1, hc.1], by rw [← hkey'.2, hc.2]⟩
    · rw [if_neg hany]
      exact List.any_eq_true.mpr ⟨x, List.mem_append_left _ hx, hkey⟩

theorem detectOne_eq (now : String) (snapsOf : Int → List SnapRow)
    (sid : Int) (rows : List ChangeRow) (latest previous : SnapRow)
    (rest : List SnapRow) (h : snapsOf sid = latest :: previous :: rest) :
    detectOne now snapsOf sid rows =
      if latest.content_hash = previous.content_hash then rows
      else upsertChange rows (detectedRow sid previous latest now) := by
  unfold detectOne
  rw [h]

theorem hasKey_detectOne_mono (now : String)
    (snapsOf : Int → List SnapRow) (sid' : Int) (rows : List ChangeRow)
    (sid nid : Int) (h : hasKey rows sid nid = true) :
    hasKey (detectOne now snapsOf sid' rows) sid nid = true := by
  cases hs : snapsOf sid' with
  | nil =>
    unfold detectOne
    rw [hs]
    exact h
  | cons latest rest =>
    cases rest with
    | nil =>
      unfold detectOne
      rw [hs]
      exact h
    | cons previous rest' =>
      rw [detectOne_eq now snapsOf sid' rows latest previous rest' hs]
      by_cases he : latest.content_hash = previous.content_hash
      · rw [if_pos he]; exact h
      · rw [if_neg he]
        exact hasKey_upsertChange_mono _ _ _ _ h

theorem length_upsertChange_of_hasKey (rows : List ChangeRow)
    (r : ChangeRow)
    (h : hasKey rows r.source_id r.new_snapshot_id = true) :
    (upsertChange rows r).length = rows.length := by
  unfold hasKey at h
  unfold upsertChange
  rw [if_pos h]
  exact List.length_map _ _

theorem length_detectOne_of_hasKey (now : String)
    (snapsOf : Int → List SnapRow) (sid : Int) (rows : List ChangeRow)
    (h : ∀ latest previous rest, snapsOf sid = latest :: previous :: rest
      → latest.content_hash ≠ previous.content_hash →
      hasKey rows sid latest.id = true) :
    (detectOne now snapsOf sid rows).length = rows.length := by
  cases hs : snapsOf sid with
  | nil =>
    unfold detectOne
    rw [hs]
  | cons latest rest =>
    cases rest with
    | nil =>
      unfold detectOne
      rw [hs]
    | cons previous rest' =>
      rw [detectOne_eq now snapsOf sid rows latest previous rest' hs]
      by_cases he : latest.content_hash = previous.content_hash
      · rw [if_pos he]
      · rw [if_neg he]
        exact length_upsertChange_of_hasKey rows _
          (h latest previous rest' hs he)

theorem mem_upsertChange_self (rows : List ChangeRow) (r : ChangeRow) :
    r ∈ upsertChange rows r := by
  unfold upsertChange
  by_cases h : rows.any (fun x => x.source_id = r.source_id ∧
      x.new_snapshot_id = r.new_snapshot_id)
  · rw [if_pos h]
    obtain ⟨x, hx, hkey⟩ := List.any_eq_true.mp h
    refine List.mem_map.mpr ⟨x, hx, ?_⟩
    rw [if_pos (of_decide_eq_true hkey)]
  · rw [if_neg h]
    simp

theorem mem_upsertChange_of_mem (rows : List ChangeRow) (q r : ChangeRow)
    (hr : r ∈ rows)
    (himp : r.source_id = q.source_id ∧
      r.new_snapshot_id = q.new_snapshot_id → r = q) :
    r ∈ upsertChange rows q := by
  unfold upsertChange
  by_cases h : rows.any (fun x => x.source_id = q.source_id ∧
      x.new_snapshot_id = q.new_snapshot_id)
  · rw [if_pos h]
    refine List.mem_map.mpr ⟨r, hr, ?_⟩
    by_cases hkey : r.source_id = q.source_id ∧
        r.new_snapshot_id = q.new_snapshot_id
    · rw [if_pos hkey, ← himp hkey]
    · rw [if_neg hkey]
  · rw [if_neg h]
    exact List.mem_append_left _ hr

theorem mem_detectOne_preserve (now : String)
    (snapsOf : Int → List SnapRow) (sid s' : Int)
    (latest previous : SnapRow) (rest : List SnapRow)
    (hs : snapsOf sid = latest :: previous :: rest)
    (rows : List ChangeRow)
    (hr : detectedRow sid previous latest now ∈ rows) :
    detectedRow sid previous latest now ∈
      detectOne now snapsOf s' rows := by
  cases hs' : snapsOf s' with
  | nil =>
    unfold detectOne
    rw [hs']
    exact hr
  | cons lat' rest0 =>
    cases rest0 with
    | nil =>
      unfold detectOne
      rw [hs']
      exact hr
    | cons prev' rest1 =>
      rw [detectOne_eq now snapsOf s' rows lat' prev' rest1 hs']
      by_cases he' : lat'.content_hash = prev'.content_hash
      · rw [if_pos he']
        exact hr
      · rw [if_neg he']
        apply mem_upsertChange_of_mem _ _ _ hr
        intro hkey
        have hsid : sid = s' := hkey.1
        subst hsid
        rw [hs] at hs'
        injection hs' with h1 h2
        injection h2 with h2 _
        rw [h1, h2]

theorem mem_foldDetect_preserve (now : String)
    (snapsOf : Int → List SnapRow) (sid : Int)
    (latest previous : SnapRow) (rest : List SnapRow)
    (hs : snapsOf sid = latest :: previous :: rest) :
    ∀ (ids : List Int) (rows : List ChangeRow),
      detectedRow sid previous latest now ∈ rows →
      detectedRow sid previous latest now ∈
        ids.foldl (fun rs s => detectOne now snapsOf s rs) rows := by
  intro ids
  induction ids with
  | nil => intro rows hr; exact hr
  | cons a l ih =>
    intro rows hr
    exact ih _ (mem_detectOne_preserve now snapsOf sid a latest previous
      rest hs rows hr)

theorem mem_foldDetect_hit (now : String)
    (snapsOf : Int → List SnapRow) (sid : Int)
    (latest previous : SnapRow) (rest : List SnapRow)
    (hs : snapsOf sid = latest :: previous :: rest)
    (hne : latest.content_hash ≠ previous.content_hash) :
    ∀ (ids : List Int) (rows : List ChangeRow), sid ∈ ids →
      detectedRow sid previous latest now ∈
        ids.foldl (fun rs s => detectOne now snapsOf s rs) rows := by
  intro ids
  induction ids with
  | nil => intro rows hmem; cases hmem
  | cons a l ih =>
    intro rows hmem
    by_cases ha : sid = a
    · subst ha
      apply mem_foldDetect_preserve now snapsOf sid latest previous rest
        hs l
      show detectedRow sid previous latest now ∈
        detectOne now snapsOf sid rows
      rw [detectOne_eq now snapsOf sid rows latest previous rest hs,
        if_neg hne]
      exact mem_upsertChange_self _ _
    · rcases List.mem_cons.mp hmem with h | h
      · exact absurd h ha
      · exact ih _ h

theorem hasKey_foldDetect_hit (now : String)
    (snapsOf : Int → List SnapRow) (sid : Int)
    (latest previous : SnapRow) (rest : List SnapRow)
    (hs : snapsOf sid = latest :: previous :: rest)
    (hne : latest.content_hash ≠ previous.content_hash) :
    ∀ (ids : List Int) (rows : List ChangeRow), sid ∈ ids →
      hasKey (ids.foldl (fun rs s => detectOne now snapsOf s rs) rows)
        sid latest.id = true := by
  intro ids rows hmem
  unfold hasKey
  refine List.any_eq_true.mpr
    ⟨detectedRow sid previous latest now, ?_, by simp [detectedRow]⟩
  exact mem_foldDetect_hit now snapsOf sid latest previous rest hs hne
    ids rows hmem

theorem length_foldDetect (now : String)
    (snapsOf : Int → List SnapRow) :
    ∀ (ids : List Int) (rows : List ChangeRow),
      (∀ sid ∈ ids, ∀ latest previous rest,
        snapsOf sid = latest :: previous :: rest →
        latest.content_hash ≠ previous.content_hash →
        hasKey rows sid latest.id = true) →
      (ids.foldl (fun rs s => detectOne now snapsOf s rs) rows).length =
        rows.length := by
  intro ids
  induction ids with
  | nil => intro rows _; rfl
  | cons a l ih =>
    intro rows h
    have ha := h a (by simp)
    have hlen : (detectOne now snapsOf a rows).length = rows.length :=
      length_detectOne_of_hasKey now snapsOf a rows ha
    rw [List.foldl_cons, ih _ ?_, hlen]
    intro sid hsid latest previous rest hs hne
    exact hasKey_detectOne_mono now snapsOf a rows sid latest.id
      (h sid (by simp [hsid]) latest previous rest hs hne)

theorem filter_map_upsert (q : ChangeRow) (sid : Int)
    (hq : ¬ q.source_id = sid) :
    ∀ rows : List ChangeRow,
      (rows.map (fun x =>
        if x.source_id = q.source_id ∧
            x.new_snapshot_id = q.new_snapshot_id then q else x)).filter
          (fun x => x.source_id = sid) =
        rows.filter (fun x => x.source_id = sid) := by
  intro rows
  induction rows with
  | nil => rfl
  | cons x xs ih =>
    rw [List.map_cons, List.filter_cons, List.filter_cons]
    by_cases hkey : x.source_id = q.source_id ∧
        x.new_snapshot_id = q.new_snapshot_id
    · rw [if_pos hkey]
      have h1 : ¬ x.source_id = sid := by
        rw [hkey.1]
        exact hq
      simp [hq, h1, ih]
    · rw [if_neg hkey]
      by_cases hx : x.source_id = sid
      · simp [hx, ih]
      · simp [hx, ih]

theorem changesFor_upsertChange_other (rows : List ChangeRow)
    (q : ChangeRow) (sid : Int) (hq : ¬ q.source_id = sid) :
    changesFor (upsertChange rows q) sid = changesFor rows sid := by
  unfold changesFor upsertChange
  by_cases h : rows.any (fun x => x.source_id = q.source_id ∧
      x.new_snapshot_id = q.new_snapshot_id)
  · rw [if_pos h]
    exact filter_map_upsert q sid hq rows
  · rw [if_neg h, List.filter_append]
    have : [q].filter (fun x => x.source_id = sid) = [] := by
      simp [hq]
    rw [this, List.append_nil]

theorem changesFor_detectOne_other (now : String)
    (snapsOf : Int → List SnapRow) (s' sid : Int)
    (rows : List ChangeRow) (hne : ¬ s' = sid) :
    changesFor (detectOne now snapsOf s' rows) sid =
      changesFor rows sid := by
  cases hs' : snapsOf s' with
  | nil =>
    unfold detectOne
    rw [hs']
  | cons lat' rest0 =>
    cases rest0 with
    | nil =>
      unfold detectOne
      rw [hs']
    | cons prev' rest1 =>
      rw [detectOne_eq now snapsOf s' rows lat' prev' rest1 hs']
      by_cases he : lat'.content_hash = prev'.content_hash
      · rw [if_pos he]
      · rw [if_neg he]
        exact changesFor_upsertChange_other rows _ sid hne

theorem detectOne_skip (now : String) (snapsOf : Int → List SnapRow)
    (sid : Int) (rows : List ChangeRow)
    (hskip : ∀ latest previous rest,
      snapsOf sid = latest :: previous :: rest →
      latest.content_hash = previous.content_hash) :
    detectOne now snapsOf sid rows = rows := by
  cases hs : snapsOf sid with
  | nil =>
    unfold detectOne
    rw [hs]
  | cons latest rest0 =>
    cases rest0 with
    | nil =>
      unfold detectOne
      rw [hs]
    | cons previous rest1 =>
      rw [detectOne_eq now snapsOf sid rows latest previous rest1 hs,
        if_pos (hskip latest previous rest1 hs)]

theorem changesFor_foldDetect_skip (now : String)
    (snapsOf : Int → List SnapRow) (sid : Int)
    (hskip : ∀ latest previous rest,
      snapsOf sid = latest :: previous :: rest →
      latest.content_hash = previous.content_hash) :
    ∀ (ids : List Int) (rows : List ChangeRow),
      changesFor (ids.foldl (fun rs s => detectOne now snapsOf s rs)
        rows) sid = changesFor rows sid := by
  intro ids
  induction ids with
  | nil => intro rows; rfl
  | cons a l ih =>
    intro rows
    rw [List.foldl_cons]
    by_cases ha : a = sid
    · subst ha
      rw [detectOne_skip now snapsOf a rows hskip]
      exact ih rows
    · rw [ih _]
      exact changesFor_detectOne_other now snapsOf a sid rows ha

theorem mem_activeIds (st : PipelineState) (sid : Int)
    (h : (sid, true) ∈ st.sources) : sid ∈ activeIds st := by
  unfold activeIds
  exact List.mem_map.mpr ⟨(sid, true),
    List.mem_filter.mpr ⟨h, rfl⟩, rfl⟩

/-- C1: for every active source whose two most recent snapshots are
fixed, one run of the Change Detector records the Change row linking the
previous to the new snapshot exactly when the two fingerprints differ
(sources with fewer than two snapshots or equal fingerprints keep their
Change rows untouched), and a second run over the same snapshots adds
zero new Change rows, because the write is an upsert keyed on
`(source_id, new_snapshot_id)`. -/
theorem change_detector_idempotent (st : PipelineState)
    (now now2 : String) :
    (∀ sid latest previous rest, (sid, true) ∈ st.sources →
      st.snaps sid = latest :: previous :: rest →
      latest.content_hash ≠ previous.content_hash →
      detectedRow sid previous latest now ∈
        (detect_changes now st).changes) ∧
    (∀ sid, (∀ latest previous rest,
        st.snaps sid = latest :: previous :: rest →
        latest.content_hash = previous.content_hash) →
      changesFor (detect_changes now st).changes sid =
        changesFor st.changes sid) ∧
    (detect_changes now2 (detect_changes now st)).changes.length =
      (detect_changes now st).changes.length := by
  refine ⟨?_, ?_, ?_⟩
  · intro sid latest previous rest hsrc hs hne
    exact mem_foldDetect_hit now st.snaps sid latest previous rest hs
      hne (activeIds st) st.changes (mem_activeIds st sid hsrc)
  · intro sid hskip
    exact changesFor_foldDetect_skip now st.snaps sid hskip
      (activeIds st) st.changes
  · show ((activeIds st).foldl
        (fun rs s => detectOne now2 st.snaps s rs)
        (detect_changes now st).changes).length =
      (detect_changes now st).changes.length
    apply length_foldDetect
    intro sid hsid latest previous rest hs hne
    exact hasKey_foldDetect_hit now st.snaps sid latest previous rest hs
      hne (activeIds st) st.changes hsid

/-- Witness for C1: on the concrete store the first run records the
H1-to-H2 Change row, and a second run leaves the row count unchanged. -/
theorem change_detector_idempotent_witness :
    detectedRow 1 ⟨1, "H1"⟩ ⟨2, "H2"⟩ "t1" ∈
      (detect_changes "t1" detectSt0).changes ∧
    (detect_changes "t2" (detect_changes "t1" detectSt0)).changes.length
      = (detect_changes "t1" detectSt0).changes.length :=
  ⟨(change_detector_idempotent detectSt0 "t1" "t2").1 1 ⟨2, "H2"⟩
      ⟨1, "H1"⟩ [] (by decide) (by decide) (by decide),
   (change_detector_idempotent detectSt0 "t1" "t2").2.2⟩

theorem changesFor_append (a b : List ChangeRow) (sid : Int) :
    changesFor (a ++ b) sid = changesFor a sid ++ changesFor b sid :=
  List.filter_append _ _

theorem changesFor_eq_nil (rows : List ChangeRow) (sid : Int)
    (h : ∀ r ∈ rows, ¬ r.source_id = sid) : changesFor rows sid = [] := by
  unfold changesFor
  induction rows with
  | nil => rfl
  | cons r rs ih =>
    rw [List.filter_cons]
    have hr := h r (by simp)
    simp only [hr, decide_False, Bool.false_eq_true, if_false]
    exact ih (fun x hx => h x (by simp [hx]))

theorem baselineGo_extends (snapsOf : Int → List SnapRow)
    (changes : List ChangeRow) (now : String) (limit : Nat) :
    ∀ (ids : List Int) (acc : List ChangeRow),
      ∃ ext, baselineGo snapsOf changes now limit ids acc = acc ++ ext ∧
        ∀ r ∈ ext, r.source_id ∈ ids ∧
          changes.any (fun c => c.source_id = r.source_id) = false := by
  intro ids
  induction ids with
  | nil =>
    intro acc
    exact ⟨[], by simp [baselineGo], by simp⟩
  | cons sid rest ih =>
    intro acc
    by_cases hany : changes.any (fun c => c.source_id = sid) = true
    · obtain ⟨ext, hext, hprop⟩ := ih acc
      refine ⟨ext, ?_, ?_⟩
      · rw [baselineGo, if_pos hany]
        exact hext
      · intro r hr
        exact ⟨List.mem_cons_of_mem _ (hprop r hr).1, (hprop r hr).2⟩
    · have hany' : changes.any (fun c => c.source_id = sid) = false :=
        Bool.eq_false_iff.mpr hany
      cases hh : (snapsOf sid).head? with
      | none =>
        obtain ⟨ext, hext, hprop⟩ := ih acc
        refine ⟨ext, ?_, ?_⟩
        · rw [baselineGo, if_neg hany, hh]
          exact hext
        · intro r hr
          exact ⟨List.mem_cons_of_mem _ (hprop r hr).1, (hprop r hr).2⟩
      | some snap =>
        have heq : baselineGo snapsOf changes now limit (sid :: rest) acc
            = if limit ≤ (acc ++ [baselineRow sid snap.id now]).length
              then acc ++ [baselineRow sid snap.id now]
              else baselineGo snapsOf changes now limit rest
                (acc ++ [baselineRow sid snap.id now]) := by
          rw [baselineGo, if_neg hany, hh]
        by_cases hbreak : limit ≤
            (acc ++ [baselineRow sid snap.id now]).length
        · refine ⟨[baselineRow sid snap.id now], ?_, ?_⟩
          · rw [heq, if_pos hbreak]
          · intro r hr
            rw [List.mem_singleton] at hr
            subst hr
            exact ⟨by simp [baselineRow], by simpa [baselineRow] using
              hany'⟩
        · obtain ⟨ext, hext, hprop⟩ :=
            ih (acc ++ [baselineRow sid snap.id now])
          refine ⟨baselineRow sid snap.id now :: ext, ?_, ?_⟩
          · rw [heq, if_neg hbreak, hext]
            simp
          · intro r hr
            rcases List.mem_cons.mp hr with h | h
            · subst h
              exact ⟨by simp [baselineRow], by simpa [baselineRow] using
                hany'⟩
            · exact ⟨List.mem_cons_of_mem _ (hprop r h).1,
                (hprop r h).2⟩

theorem baselineGo_mem (snapsOf : Int → List SnapRow)
    (changes : List ChangeRow) (now : String) (limit : Nat) (sid : Int)
    (snap : SnapRow)
    (hnochange : changes.any (fun c => c.source_id = sid) = false)
    (hsnap : (snapsOf sid).head? = some snap) :
    ∀ (ids : List Int) (acc : List ChangeRow), ids.Nodup → sid ∈ ids →
      acc.length +
        (ids.filter (qualifiesB snapsOf changes)).length ≤ limit →
      changesFor (baselineGo snapsOf changes now limit ids acc) sid =
        changesFor acc sid ++ [baselineRow sid snap.id now] := by
  have hsq : qualifiesB snapsOf changes sid = true := by
    unfold qualifiesB
    rw [hnochange]
    have hne : (snapsOf sid).isEmpty = false := by
      cases hsn : snapsOf sid with
      | nil => rw [hsn] at hsnap; cases hsnap
      | cons a l => rfl
    rw [hne]
    rfl
  intro ids
  induction ids with
  | nil => intro acc _ hmem _; cases hmem
  | cons sid0 rest ih =>
    intro acc hnodup hmem hcount
    by_cases h0 : sid0 = sid
    · subst h0
      have hany : ¬ changes.any (fun c => c.source_id = sid0) = true := by
        rw [hnochange]
        simp
      have heq : baselineGo snapsOf changes now limit (sid0 :: rest) acc
          = if limit ≤ (acc ++ [baselineRow sid0 snap.id now]).length
            then acc ++ [baselineRow sid0 snap.id now]
            else baselineGo snapsOf changes now limit rest
              (acc ++ [baselineRow sid0 snap.id now]) := by
        rw [baselineGo, if_neg hany, hsnap]
      have hrowFor : changesFor [baselineRow sid0 snap.id now] sid0 =
          [baselineRow sid0 snap.id now] := by
        unfold changesFor baselineRow
        simp
      by_cases hbreak : limit ≤
          (acc ++ [baselineRow sid0 snap.id now]).length
      · rw [heq, if_pos hbreak, changesFor_append, hrowFor]
      · rw [heq, if_neg hbreak]
        have hnotin : sid0 ∉ rest := (List.nodup_cons.mp hnodup).1
        obtain ⟨ext, hext, hprop⟩ := baselineGo_extends snapsOf changes
          now limit rest (acc ++ [baselineRow sid0 snap.id now])
        rw [hext, changesFor_append, changesFor_append, hrowFor]
        have hnil : changesFor ext sid0 = [] := by
          apply changesFor_eq_nil
          intro r hr hcon
          exact hnotin (hcon ▸ (hprop r hr).1)
        rw [hnil, List.append_nil]
    · have hmem' : sid ∈ rest := by
        rcases List.mem_cons.mp hmem with h | h
        · exact absurd h.symm h0
        · exact h
      have hnodup' := (List.nodup_cons.mp hnodup).2
      by_cases hany : changes.any (fun c => c.source_id = sid0) = true
      · have heq : baselineGo snapsOf changes now limit (sid0 :: rest)
            acc = baselineGo snapsOf changes now limit rest acc := by
          rw [baselineGo, if_pos hany]
        have hq0 : qualifiesB snapsOf changes sid0 = false := by
          unfold qualifiesB
          rw [hany]
          rfl
        have hfilter : (sid0 :: rest).filter (qualifiesB snapsOf changes)
            = rest.filter (qualifiesB snapsOf changes) := by
          rw [List.filter_cons]
          simp [hq0]
        rw [heq]
        rw [hfilter] at hcount
        exact ih acc hnodup' hmem' hcount
      · have hany' : changes.any (fun c => c.source_id = sid0) = false :=
          Bool.eq_false_iff.mpr hany
        cases hh : (snapsOf sid0).head? with
        | none =>
          have heq : baselineGo snapsOf changes now limit (sid0 :: rest)
              acc = baselineGo snapsOf changes now limit rest acc := by
            rw [baselineGo, if_neg hany, hh]
          have hq0 : qualifiesB snapsOf changes sid0 = false := by
            unfold qualifiesB
            have hn : snapsOf sid0 = [] := by
              cases hsn : snapsOf sid0 with
              | nil => rfl
              | cons a l => rw [hsn] at hh; cases hh
            rw [hany', hn]
            rfl
          have hfilter : (sid0 :: rest).filter
              (qualifiesB snapsOf changes) =
              rest.filter (qualifiesB snapsOf changes) := by
            rw [List.filter_cons]
            simp [hq0]
          rw [heq]
          rw [hfilter] at hcount
          exact ih acc hnodup' hmem' hcount
        | some snap0 =>
          have hq0 : qualifiesB snapsOf changes sid0 = true := by
            unfold qualifiesB
            rw [hany']
            have hne : (snapsOf sid0).isEmpty = false := by
              cases hsn : snapsOf sid0 with
              | nil => rw [hsn] at hh; cases hh
              | cons a l => rfl
            rw [hne]
            rfl
          have hfilter : (sid0 :: rest).filter
              (qualifiesB snapsOf changes) =
              sid0 :: rest.filter (qualifiesB snapsOf changes) := by
            rw [List.filter_cons]
            simp [hq0]
          have heq : baselineGo snapsOf changes now limit (sid0 :: rest)
              acc =
              if limit ≤ (acc ++ [baselineRow sid0 snap0.id now]).length
              then acc ++ [baselineRow sid0 snap0.id now]
              else baselineGo snapsOf changes now limit rest
                (acc ++ [baselineRow sid0 snap0.id now]) := by
            rw [baselineGo, if_neg hany, hh]
          have hrest1 : 1 ≤
              (rest.filter (qualifiesB snapsOf changes)).length :=
            List.length_pos_of_mem
              (List.mem_filter.mpr ⟨hmem', hsq⟩)
          rw [hfilter] at hcount
          simp only [List.length_cons] at hcount
          by_cases hbreak : limit ≤
              (acc ++ [baselineRow sid0 snap0.id now]).length
          · exfalso
            simp only [List.length_append, List.length_cons,
              List.length_nil] at hbreak
            omega
          · rw [heq, if_neg hbreak]
            have ihapp := ih (acc ++ [baselineRow sid0 snap0.id now])
              hnodup' hmem' (by
                simp only [List.length_append, List.length_cons,
                  List.length_nil]
                omega)
            rw [ihapp, changesFor_append]
            have hnil : changesFor [baselineRow sid0 snap0.id now] sid =
                [] := by
              apply changesFor_eq_nil
              intro r hr
              rw [List.mem_singleton] at hr
              subst hr
              exact h0
            rw [hnil, List.append_nil]

theorem changesFor_create_existing (now : String) (st : PipelineState)
    (limit : Nat) (sid' : Int)
    (h : st.changes.any (fun c => c.source_id = sid') = true) :
    changesFor ((create_baseline_changes now st limit).1).changes sid' =
      changesFor st.changes sid' := by
  obtain ⟨ext, hext, hprop⟩ := baselineGo_extends st.snaps st.changes
    now limit ((st.sources.map Prod.fst).take 5000) []
  show changesFor (st.changes ++ baselineGo st.snaps st.changes now
    limit ((st.sources.map Prod.fst).take 5000) []) sid' =
    changesFor st.changes sid'
  rw [hext, List.nil_append, changesFor_append]
  have hnil : changesFor ext sid' = [] := by
    apply changesFor_eq_nil
    intro r hr hcon
    have := (hprop r hr).2
    rw [hcon] at this
    rw [h] at this
    cases this
  rw [hnil, List.append_nil]

/-- C6 (amended): for a source with at least one snapshot and zero Change
rows, one run inserts exactly one Change with previous = new = the
source's latest snapshot id, tagged `type: "baseline"`, *provided the
number of qualifying sources does not exceed the per-run insertion cap
(`limit`, default 50)* — beyond the cap later qualifying sources get
nothing that run; sources that already have any Change are untouched, and
a second run adds nothing for the bootstrapped source, so two consecutive
runs yield exactly one Change in total. -/
theorem create_baseline_spec (st : PipelineState) (now now2 : String)
    (limit : Nat) (sid : Int) (snap : SnapRow)
    (hnodup : ((st.sources.map Prod.fst).take 5000).Nodup)
    (hmem : sid ∈ (st.sources.map Prod.fst).take 5000)
    (hnochange : st.changes.any (fun c => c.source_id = sid) = false)
    (hsnap : (st.snaps sid).head? = some snap)
    (hcount : (((st.sources.map Prod.fst).take 5000).filter
      (qualifiesB st.snaps st.changes)).length ≤ limit) :
    changesFor ((create_baseline_changes now st limit).1).changes sid =
      [baselineRow sid snap.id now] ∧
    (baselineRow sid snap.id now).prev_snapshot_id = snap.id ∧
    (baselineRow sid snap.id now).new_snapshot_id = snap.id ∧
    (baselineRow sid snap.id now).diff_type = some "baseline" ∧
    (∀ sid', st.changes.any (fun c => c.source_id = sid') = true →
      changesFor ((create_baseline_changes now st limit).1).changes sid'
        = changesFor st.changes sid') ∧
    changesFor ((create_baseline_changes now2
        ((create_baseline_changes now st limit).1) limit).1).changes sid
      = [baselineRow sid snap.id now] := by
  have hrun1 : changesFor
      ((create_baseline_changes now st limit).1).changes sid =
      [baselineRow sid snap.id now] := by
    show changesFor (st.changes ++ baselineGo st.snaps st.changes now
      limit ((st.sources.map Prod.fst).take 5000) []) sid =
      [baselineRow sid snap.id now]
    rw [changesFor_append]
    have hnil : changesFor st.changes sid = [] := by
      apply changesFor_eq_nil
      intro r hr hcon
      have hany : st.changes.any (fun c => c.source_id = sid) = true :=
        List.any_eq_true.mpr ⟨r, hr, by simp [hcon]⟩
      rw [hnochange] at hany
      cases hany
    rw [hnil, List.nil_append]
    rw [baselineGo_mem st.snaps st.changes now limit sid snap hnochange
      hsnap ((st.sources.map Prod.fst).take 5000) [] hnodup hmem
      (by simpa using hcount)]
    rfl
  refine ⟨hrun1, rfl, rfl, rfl, ?_, ?_⟩
  · intro sid' h
    exact changesFor_create_existing now st limit sid' h
  · have hmemrow : baselineRow sid snap.id now ∈
        ((create_baseline_changes now st limit).1).changes := by
      apply List.mem_of_mem_filter (p := fun x => x.source_id = sid)
      show baselineRow sid snap.id now ∈ changesFor
        ((create_baseline_changes now st limit).1).changes sid
      rw [hrun1]
      simp
    have hany1 : ((create_baseline_changes now st limit).1).changes.any
        (fun c => c.source_id = sid) = true :=
      List.any_eq_true.mpr ⟨_, hmemrow, by simp [baselineRow]⟩
    rw [changesFor_create_existing now2 _ limit sid hany1, hrun1]

/-- C6 counterexample to the claim as stated: with 51 sources all
qualifying, one run with the default cap of 50 inserts exactly 50
baselines and the 51st qualifying source (id 50) gets no Change at all,
refuting "for every source ... one run creates exactly one Change". -/
theorem create_baseline_counterexample :
    qualifiesB manyBaselineSt.snaps manyBaselineSt.changes 50 = true ∧
    (create_baseline_changes "t" manyBaselineSt).2 = 50 ∧
    changesFor ((create_baseline_changes "t" manyBaselineSt).1).changes
      50 = [] := by
  refine ⟨rfl, rfl, by decide⟩

/-- Witness for C6: source 1 gets exactly one baseline Change
(prev = new = 7) and a second run leaves it as the only one. -/
theorem create_baseline_spec_witness :
    changesFor ((create_baseline_changes "t1" baselineSt0 50).1).changes
      1 = [baselineRow 1 7 "t1"] ∧
    changesFor ((create_baseline_changes "t2"
        ((create_baseline_changes "t1" baselineSt0 50).1) 50).1).changes
      1 = [baselineRow 1 7 "t1"] :=
  ⟨(create_baseline_spec baselineSt0 "t1" "t2" 50 1 ⟨7, "HA"⟩
      (by decide) (by decide) (by decide) (by decide) (by decide)).1,
   (create_baseline_spec baselineSt0 "t1" "t2" 50 1 ⟨7, "HA"⟩
      (by decide) (by decide) (by decide) (by decide)
      (by decide)).2.2.2.2.2⟩

end RiskAgents
